import Mathlib

/-!
Shallow embedding of the a2a-orchestrator conversation core
(backend/src/world: world.ts, messageDAG.ts, verifier.ts, requestManager.ts)
and proofs about the spec's claims on it.

Modelling conventions:
* Message ids are modelled as naturals.  The source builds ids as
  `msg_${++counter}_${Date.now()}_${random}`; the only operations it ever
  performs on an id are equality tests, and ids produced by one World are
  pairwise distinct because the incremented counter is embedded in the id.
  We model the id of the n-th generated message as the natural n.
* JavaScript `Map` insertion-order semantics are modelled by a list:
  `set` replaces in place when the key exists and appends otherwise.
* External effects (the LLM call, the agent endpoint call, JSON.parse on the
  response text) are modelled as oracle inputs: `Except Unit _` is the outcome
  of an awaited call (error = thrown/parse failure), and the parsed JSON
  object is passed as a record of optional fields.
* `timestamp` (Date.now()) is carried but never inspected by the logic;
  it is supplied by the caller in the model.
-/

namespace A2AOrch

inductive MsgStatus where
  | accepted
  | dropped
deriving DecidableEq, Repr

/-- Message record (backend/src/types.ts): `{id, speaker, content, timestamp,
replyTo?, status?}`. -/
structure Message where
  id : Nat
  speaker : String
  content : String
  timestamp : Nat
  replyTo : Option Nat := none
  status : Option MsgStatus := none
deriving DecidableEq, Repr

/-- JS `Map.set` on an insertion-ordered association list keyed by `Message.id`:
replace in place if the key is present, append otherwise. -/
def mapSet (msgs : List Message) (m : Message) : List Message :=
  if msgs.any (fun x => x.id = m.id) then
    msgs.map (fun x => if x.id = m.id then m else x)
  else
    msgs ++ [m]

/-- MessageDAG (messageDAG.ts): insertion-ordered message store plus the
tracked root and latest-accepted ids. -/
structure MessageDAG where
  messages : List Message := []
  rootMessageId : Option Nat := none
  latestAcceptedMessageId : Option Nat := none
deriving DecidableEq, Repr

def MessageDAG.empty : MessageDAG := {}

/-- `MessageDAG.addMessage`: store the message; if no root is set yet and the
speaker is "User", record it as root (and latest accepted); if the message has
status accepted, record it as latest accepted. -/
def MessageDAG.addMessage (dag : MessageDAG) (m : Message) : MessageDAG :=
  let messages := mapSet dag.messages m
  let becomesRoot := dag.rootMessageId = none ∧ m.speaker = "User"
  let rootMessageId := if becomesRoot then some m.id else dag.rootMessageId
  let latestAfterRoot :=
    if becomesRoot then some m.id else dag.latestAcceptedMessageId
  let latestAcceptedMessageId :=
    if m.status = some MsgStatus.accepted then some m.id else latestAfterRoot
  { messages := messages, rootMessageId := rootMessageId,
    latestAcceptedMessageId := latestAcceptedMessageId }

/-- `MessageDAG.getMessage`: lookup by id (`Map.get`). -/
def MessageDAG.getMessage (dag : MessageDAG) (id : Nat) : Option Message :=
  dag.messages.find? (fun m => m.id = id)

/-- `MessageDAG.getChildren`: all messages whose `replyTo` is the given id,
in store order. -/
def MessageDAG.getChildren (dag : MessageDAG) (id : Nat) : List Message :=
  dag.messages.filter (fun m => m.replyTo = some id)

/-- The first accepted child of a message, in store order
(`getChildren(...).find(child => child.status === "accepted")`). -/
def MessageDAG.nextAcceptedChild (dag : MessageDAG) (id : Nat) : Option Message :=
  (dag.getChildren id).find? (fun m => m.status = some MsgStatus.accepted)

/-- The while-loop body of `MessageDAG.getMainHistory`, made total with
explicit fuel: from the current id, look the message up (stop if absent),
emit it, and continue with the first accepted child.  The source loop has no
fuel; a run of the source terminates within `n` iterations iff the fuel-`n`
walk has already stabilised. -/
def MessageDAG.mainHistoryFuel (dag : MessageDAG) : Nat → Option Nat → List Message
  | 0, _ => []
  | _ + 1, none => []
  | fuel + 1, some id =>
    match dag.getMessage id with
    | none => []
    | some m =>
      m :: dag.mainHistoryFuel fuel ((dag.nextAcceptedChild id).map (fun c => c.id))

/-- `MessageDAG.getMainHistory` with fuel `|messages|`: under the spec's
tree-shapedness invariant this equals every larger-fuel walk (proved below);
on cyclic stores the source loop does not terminate and the fuelled walks
keep growing. -/
def MessageDAG.getMainHistory (dag : MessageDAG) : List Message :=
  dag.mainHistoryFuel dag.messages.length dag.rootMessageId

/-- `MessageDAG.clear`. -/
def MessageDAG.clear (_dag : MessageDAG) : MessageDAG := {}

/-! ### Verifier (verifier.ts) -/

structure VerificationResult where
  should_stop : Bool
  stop_reason : String
  user_intent : String
deriving DecidableEq, Repr

/-- Verifier instance state: the sticky extracted user intent. -/
structure VerifierState where
  userIntent : String := ""
deriving DecidableEq, Repr

/-- `Verifier.reset`. -/
def VerifierState.reset (_st : VerifierState) : VerifierState := { userIntent := "" }

/-- The fields of the JSON object parsed from the model response in
`Verifier.verify`; each may be absent. -/
structure ParsedVerification where
  user_intent : Option String := none
  should_stop : Option Bool := none
  stop_reason : Option String := none
deriving DecidableEq, Repr

/-- JS truthiness of an optional string (`undefined` and `""` are falsy). -/
def jsTruthy : Option String → Bool
  | none => false
  | some s => s ≠ ""

/-- JS `x || ""` on an optional string. -/
def jsOrEmpty : Option String → String
  | none => ""
  | some s => s

/-- JS `x || y` fallback on an optional string (`undefined` and `""` fall
through to `y`). -/
def jsOrElse (x : Option String) (y : String) : String :=
  match x with
  | none => y
  | some s => if s = "" then y else s

/-- Strictness-level selection in `Verifier.verify` (verifier.ts lines 40-52):
the evaluation level embedded in the prompt as a function of the accepted
message count. -/
def evaluationLevel (messageCount : Nat) : String :=
  if messageCount ≤ 3 then "LENIENT"
  else if messageCount ≤ 7 then "MODERATE"
  else if messageCount ≤ 12 then "STRICT"
  else "VERY_STRICT"

/-- `Verifier.verify` after the model call resolved: `outcome` is `.error ()`
when the request failed or the response failed to parse as JSON (both land in
the same catch block), and `.ok parsed` when JSON.parse succeeded with the
given fields.  Returns the result together with the updated verifier state. -/
def VerifierState.verify (st : VerifierState)
    (outcome : Except Unit ParsedVerification) :
    VerificationResult × VerifierState :=
  match outcome with
  | Except.error _ =>
    ({ should_stop := false, stop_reason := "", user_intent := st.userIntent }, st)
  | Except.ok parsed =>
    let st1 :=
      if jsTruthy parsed.user_intent ∧ st.userIntent = "" then
        { userIntent := jsOrEmpty parsed.user_intent }
      else st
    ({ should_stop := parsed.should_stop = some true,
       stop_reason := jsOrEmpty parsed.stop_reason,
       user_intent := st1.userIntent }, st1)

/-- Run a sequence of `verify` calls, collecting the results. -/
def VerifierState.verifyRun (st : VerifierState)
    (outs : List (Except Unit ParsedVerification)) :
    List VerificationResult × VerifierState :=
  match outs with
  | [] => ([], st)
  | o :: rest =>
    let (r, st1) := st.verify o
    let (rs, st2) := st1.verifyRun rest
    (r :: rs, st2)

/-! ### Summarizer (World.summarizeBlock, world.ts lines 104-200) -/

/-- A `{id, name}` speaker reference. -/
structure SpeakerRef where
  id : String
  name : String
deriving DecidableEq, Repr

/-- The reserved human sentinel `{id: "user", name: "User"}`. -/
def userSentinel : SpeakerRef := { id := "user", name := "User" }

/-- `availableSpeakers` (world.ts lines 115-121): every roster agent as
`{id: name, name: name}` plus the human sentinel.  Rosters are modelled by
their agent names, the only persona field the orchestration logic inspects. -/
def availableSpeakers (agents : List String) : List SpeakerRef :=
  agents.map (fun n => { id := n, name := n }) ++ [userSentinel]

/-- The fields of the JSON object parsed from the summarizer model response;
each may be absent (`parsed.next?.id` etc.). -/
structure ParsedSummary where
  summary : Option String := none
  next_id : Option String := none
  next_name : Option String := none
  recommendation_reason : Option String := none
deriving DecidableEq, Repr

structure BlockResult where
  summary : String
  next : SpeakerRef
  recommendation_reason : String
deriving DecidableEq, Repr

/-- The fallback result built in the catch block of `summarizeBlock`
(world.ts lines 191-199). -/
def summarizeFallback (currentBlock : String) (newMessage : Message) : BlockResult :=
  { summary :=
      (currentBlock ++ "\n\n" ++ newMessage.speaker ++ ": " ++ newMessage.content).take 500,
    next := userSentinel,
    recommendation_reason := "" }

/-- `World.summarizeBlock` after the model call resolved.  `outcome` is
`.error ()` when the request failed or `JSON.parse` threw (both land in the
same catch block); `.ok (response, parsed)` carries the raw response text and
the parsed object.  On success the recommended speaker is validated against
the roster by id or name; an invalid speaker falls back to the human sentinel
while summary and rationale are still taken from the parsed response. -/
def summarizeBlock (currentBlock : String) (newMessage : Message)
    (agents : List String) (outcome : Except Unit (String × ParsedSummary)) :
    BlockResult :=
  match outcome with
  | Except.error _ => summarizeFallback currentBlock newMessage
  | Except.ok (response, parsed) =>
    let speakers := availableSpeakers agents
    let validSpeaker := speakers.find? (fun s =>
      parsed.next_id = some s.id ∨ parsed.next_name = some s.name)
    { summary := jsOrElse parsed.summary (response.take 500),
      next := validSpeaker.getD userSentinel,
      recommendation_reason := jsOrEmpty parsed.recommendation_reason }

/-! ### World state machine (world.ts)

The World composes the MessageDAG, the summarizer and the verifier.  Its
operations are modelled as atomic steps at the granularity the JavaScript
event loop serialises them; outcomes of awaited external calls are oracle
parameters.  A background verification that resolves later is modelled as a
separate `resolve` step (its `.then` callback), which is how the source
applies it: only flag/recommendation fields are touched, never the DAG. -/

structure WorldState where
  agents : List String
  dag : MessageDAG := {}
  firstResponseReceived : List Nat := []
  currentBlock : String := ""
  nextSpeaker : SpeakerRef := userSentinel
  initialUserMessage : String := ""
  shouldStopConversation : Bool := false
  stopReason : String := ""
  userIntent : String := ""
  currentConversationMessageCount : Nat := 0
  messageIdCounter : Nat := 0
deriving DecidableEq, Repr

/-- Fresh World for a thread (constructor, world.ts lines 33-43). -/
def World.init (agents : List String) : WorldState := { agents := agents }

/-- `World.addUserMessage` (world.ts lines 205-227): reset the per-conversation
flags and verifier, then append a User message with no `replyTo` and no
status.  `ts` is the `Date.now()` value. -/
def World.addUserMessage (st : WorldState) (content : String) (ts : Nat) :
    WorldState × Message :=
  let counter := st.messageIdCounter + 1
  let message : Message :=
    { id := counter, speaker := "User", content := content, timestamp := ts }
  ({ st with
      initialUserMessage := content,
      shouldStopConversation := false,
      stopReason := "",
      userIntent := "",
      firstResponseReceived := [],
      currentConversationMessageCount := 0,
      messageIdCounter := counter,
      dag := st.dag.addMessage message },
   message)

/-- `World.processSpecificAgent` (world.ts lines 435-482): find the last User
message with the given content, find the agent in the roster, await its reply
(`outcome`), and append the reply with status accepted exactly when no first
response has been recorded for that user message yet ("claim first
acceptance").  A failed reply (`.error`) changes nothing.  `ts` is the
`Date.now()` value of the appended reply. -/
def World.processSpecificAgent (st : WorldState) (messageContent : String)
    (agentName : String) (outcome : Except Unit String) (ts : Nat) : WorldState :=
  let userMessage :=
    (st.dag.messages.filter
      (fun m => m.speaker = "User" ∧ m.content = messageContent)).getLast?
  match userMessage with
  | none => st
  | some um =>
    if (st.agents.find? (fun a => a = agentName)).isSome then
      match outcome with
      | Except.error _ => st
      | Except.ok content =>
        let isFirst := ¬ um.id ∈ st.firstResponseReceived
        let frr :=
          if isFirst then st.firstResponseReceived ++ [um.id]
          else st.firstResponseReceived
        let counter := st.messageIdCounter + 1
        let message : Message :=
          { id := counter, speaker := agentName, content := content,
            timestamp := ts, replyTo := some um.id,
            status := some (if isFirst then MsgStatus.accepted else MsgStatus.dropped) }
        { st with
            firstResponseReceived := frr,
            messageIdCounter := counter,
            dag := st.dag.addMessage message }
    else st

/-- The `.then` callback of a background `verifier.verify` call
(world.ts lines 274-289 and 373-388): set the user intent and, when the
verdict is stop, set the stop flag, the stop reason and reset the next
speaker to the human sentinel. -/
def World.applyVerification (st : WorldState) (v : VerificationResult) : WorldState :=
  let st1 := { st with userIntent := v.user_intent }
  if v.should_stop then
    { st1 with
        shouldStopConversation := true,
        stopReason := v.stop_reason,
        nextSpeaker := userSentinel }
  else st1

/-- The tail of `World.broadcastToAgents` (world.ts lines 246-300) after all
`processSpecificAgent` promises settled: look for the first accepted reply to
the user message; if there is one, bump the accepted-message counter, run the
summarizer (oracle `summ`), install its summary and recommendation, and
launch a background verification.  The returned Bool records whether the
summarizer was invoked (and a verification launched).  Without an accepted
reply the state is returned unchanged with result `none`. -/
def World.broadcastFinish (st : WorldState) (userMessageId : Nat)
    (summ : Except Unit (String × ParsedSummary)) :
    WorldState × Option Message × Bool :=
  let acceptedMessage := st.dag.messages.find? (fun m =>
    m.replyTo = some userMessageId ∧ m.status = some MsgStatus.accepted)
  match acceptedMessage with
  | none => (st, none, false)
  | some acc =>
    let st1 := { st with
      currentConversationMessageCount := st.currentConversationMessageCount + 1 }
    let blockResult := summarizeBlock st1.currentBlock acc st1.agents summ
    let st2 := { st1 with
      currentBlock := blockResult.summary, nextSpeaker := blockResult.next }
    (st2, some acc, true)

/-- Per-round oracle for the sequential loop: an optional background
verification resolving at the round boundary, the agent call outcome, the
`Date.now()` stamp of the appended reply, and the summarizer call outcome. -/
structure RoundOracle where
  resolve : Option VerificationResult := none
  agentOutcome : Except Unit String := Except.error ()
  ts : Nat := 0
  summ : Except Unit (String × ParsedSummary) := Except.error ()
deriving Repr

/-- One check of the sequential loop (world.ts lines 314-331): the loop body
is skipped (the loop breaks) when the stop flag is set, the next speaker is
the user sentinel id, the next speaker's name equals the last message's
speaker, or no roster agent carries the recommended name. -/
def World.roundHalts (st : WorldState) (lastMessage : Message) : Bool :=
  st.shouldStopConversation ||
  st.nextSpeaker.id = "user" ||
  st.nextSpeaker.name = lastMessage.speaker ||
  (st.agents.find? (fun a => a = st.nextSpeaker.name)).isNone

/-- The state at a round boundary of the sequential loop: applying any
background verification that resolved before the round's checks run (the
source consults the stop flag only at loop-iteration boundaries). -/
def World.roundStart (oracles : List RoundOracle) (round : Nat)
    (st : WorldState) : WorldState :=
  match (oracles.getD round {}).resolve with
  | none => st
  | some v => World.applyVerification st v

/-- The round loop of `World.processAgentResponsesQueue` (world.ts lines
313-399), with fuel = remaining rounds and `round` the current index into the
oracle list.  Returns the final state together with the list of appended
agent messages (one per executed round). -/
def World.runRounds (oracles : List RoundOracle) :
    Nat → Nat → WorldState → Message → WorldState × List Message
  | _, 0, st, _ => (st, [])
  | round, fuel + 1, st, lastMessage =>
    let o := oracles.getD round {}
    let st := World.roundStart oracles round st
    if World.roundHalts st lastMessage then (st, [])
    else
      match o.agentOutcome with
      | Except.error _ => (st, [])
      | Except.ok content =>
        let counter := st.messageIdCounter + 1
        let agentMessage : Message :=
          { id := counter, speaker := st.nextSpeaker.name, content := content,
            timestamp := o.ts, replyTo := some lastMessage.id,
            status := some MsgStatus.accepted }
        let st1 := { st with
          messageIdCounter := counter,
          dag := st.dag.addMessage agentMessage,
          currentConversationMessageCount :=
            st.currentConversationMessageCount + 1 }
        let blockResult := summarizeBlock st1.currentBlock agentMessage st1.agents o.summ
        let st2 := { st1 with
          currentBlock := blockResult.summary, nextSpeaker := blockResult.next }
        let res := World.runRounds oracles (round + 1) fuel st2 agentMessage
        (res.1, agentMessage :: res.2)

/-- `maxRounds` (world.ts line 311). -/
def maxRounds : Nat := 10

/-- `World.processAgentResponsesQueue`: run the sequential loop for at most
`maxRounds` rounds starting from the triggering message. -/
def World.processAgentResponsesQueue (st : WorldState) (initialMessage : Message)
    (oracles : List RoundOracle) : WorldState × List Message :=
  World.runRounds oracles 0 maxRounds st initialMessage

/-- `World.clearHistory` (world.ts lines 416-430). -/
def World.clearHistory (st : WorldState) : WorldState :=
  { agents := st.agents }

/-- An atomic World operation, at the granularity the event loop serialises
them.  `broadcastToAgents` is the sequence of its `specific` completion steps
followed by a `bcastFinish` step; `processAgentResponsesQueue` is a `seq`
step; a background verification resolving between operations is a `resolve`
step. -/
inductive WOp where
  | addUser (content : String) (ts : Nat)
  | specific (content : String) (agentName : String)
      (outcome : Except Unit String) (ts : Nat)
  | bcastFinish (userMessageId : Nat) (summ : Except Unit (String × ParsedSummary))
  | seq (initialMessage : Message) (oracles : List RoundOracle)
  | resolve (v : VerificationResult)
  | clear

def World.execOp (st : WorldState) : WOp → WorldState
  | WOp.addUser content ts => (World.addUserMessage st content ts).1
  | WOp.specific content agentName outcome ts =>
    World.processSpecificAgent st content agentName outcome ts
  | WOp.bcastFinish uid summ => (World.broadcastFinish st uid summ).1
  | WOp.seq initialMessage oracles =>
    (World.processAgentResponsesQueue st initialMessage oracles).1
  | WOp.resolve v => World.applyVerification st v
  | WOp.clear => World.clearHistory st

def World.execTrace (st : WorldState) (ops : List WOp) : WorldState :=
  ops.foldl World.execOp st

/-- Number of accepted replies to a given parent id in a message list. -/
def accCount (msgs : List Message) (parent : Nat) : Nat :=
  (msgs.filter (fun m =>
    m.replyTo = some parent ∧ m.status = some MsgStatus.accepted)).length

/-- Number of accepted replies to a given parent id. -/
def acceptedCount (dag : MessageDAG) (parent : Nat) : Nat :=
  accCount dag.messages parent

/-! ### RequestManager scheduler (requestManager.ts)

Jobs are identified by naturals (each `request` call creates a fresh promise
pair).  The state machine has two kinds of externally triggered transitions:
a `request` submission, and the settlement of an in-flight `executeRequest`
call; `processQueue` is the deterministic dispatcher run inside both.  The
`dispatched` field is a history variable logging the order in which jobs
left the queue; `done` logs `(job, succeeded?)` settlement reports. -/

/-- `MAX_CONCURRENT_REQUESTS` (requestManager.ts line 22). -/
def MAX_CONCURRENT_REQUESTS : Nat := 4

structure SchedState where
  queue : List Nat := []
  active : List Nat := []
  submitted : List Nat := []
  dispatched : List Nat := []
  done : List (Nat × Bool) := []
deriving DecidableEq, Repr

def SchedState.init : SchedState := {}

/-- In-flight request count (`activeRequests`). -/
def SchedState.activeRequests (s : SchedState) : Nat := s.active.length

/-- One run of `processQueue` (requestManager.ts lines 62-77 up to the await):
if below capacity and the queue is non-empty, shift the front job and start
executing it. -/
def SchedState.processQueue (s : SchedState) : SchedState :=
  if s.activeRequests ≥ MAX_CONCURRENT_REQUESTS then s
  else
    match s.queue with
    | [] => s
    | j :: rest =>
      { s with
          queue := rest,
          active := s.active ++ [j],
          dispatched := s.dispatched ++ [j] }

/-- `RequestManager.request` (lines 36-60): push the job onto the queue and
invoke the dispatcher. -/
def SchedState.request (s : SchedState) (j : Nat) : SchedState :=
  SchedState.processQueue
    { s with queue := s.queue ++ [j], submitted := s.submitted ++ [j] }

/-- Settlement of an in-flight `executeRequest` (the resolve/reject and the
finally block, lines 79-91): report the outcome to exactly this job's
promise, decrement the active count, and re-invoke the dispatcher. -/
def SchedState.complete (s : SchedState) (j : Nat) (ok : Bool) : SchedState :=
  SchedState.processQueue
    { s with active := s.active.erase j, done := s.done ++ [(j, ok)] }

/-- The scheduler's externally triggered transitions: a submission of a fresh
job, or the settlement of an in-flight job. -/
inductive SchedStep : SchedState → SchedState → Prop where
  | submit (s : SchedState) (j : Nat) (fresh : ¬ j ∈ s.submitted) :
      SchedStep s (s.request j)
  | complete (s : SchedState) (j : Nat) (ok : Bool) (mem : j ∈ s.active) :
      SchedStep s (s.complete j ok)

/-- States reachable from the initial scheduler state. -/
inductive SchedReachable : SchedState → Prop where
  | init : SchedReachable SchedState.init
  | step {s t : SchedState} : SchedReachable s → SchedStep s t → SchedReachable t

/-- A drain: a sequence of settlement transitions only (no new submissions). -/
inductive SchedDrains : SchedState → SchedState → Prop where
  | refl (s : SchedState) : SchedDrains s s
  | step {s u : SchedState} (j : Nat) (ok : Bool) (mem : j ∈ s.active) :
      SchedDrains (s.complete j ok) u → SchedDrains s u

/-! ## Theorems -/

/-! ### C6: verifier strictness selection -/

/-- C6: for every call to `Verifier.verify` with accepted-message count `n`,
the strictness level embedded in the prompt is `LENIENT` exactly when
`n ≤ 3`, `MODERATE` exactly when `4 ≤ n ≤ 7`, `STRICT` exactly when
`8 ≤ n ≤ 12`, and `VERY_STRICT` exactly when `n > 12` (boundaries at 3/4,
7/8, 12/13). -/
theorem verifier_strictness_selection (n : Nat) :
    (evaluationLevel n = "LENIENT" ↔ n ≤ 3) ∧
    (evaluationLevel n = "MODERATE" ↔ 4 ≤ n ∧ n ≤ 7) ∧
    (evaluationLevel n = "STRICT" ↔ 8 ≤ n ∧ n ≤ 12) ∧
    (evaluationLevel n = "VERY_STRICT" ↔ 12 < n) := by
  unfold evaluationLevel
  split_ifs with h1 h2 h3 <;>
    refine ⟨?_, ?_, ?_, ?_⟩ <;> constructor <;> intro h <;>
    first
      | rfl
      | omega
      | exact absurd h (by decide)

/-! ### C7: verifier fail-open -/

/-- C7: for every call to `Verifier.verify` in which the model call fails or
the response fails to parse as JSON (both are the `.error` outcome, the
source's single catch block), the result is exactly
`{should_stop := false, stop_reason := "", user_intent := stored intent}`
and the stored intent is unchanged. -/
theorem verifier_fail_open (st : VerifierState) :
    st.verify (Except.error ()) =
      ({ should_stop := false, stop_reason := "", user_intent := st.userIntent },
       st) := rfl

/-! ### C8: sticky intent monotonicity -/

theorem verify_keeps_nonempty_intent (st : VerifierState)
    (o : Except Unit ParsedVerification) (h : st.userIntent ≠ "") :
    (st.verify o).2 = st := by
  match o with
  | Except.error _ => rfl
  | Except.ok parsed =>
    simp only [VerifierState.verify]
    have : ¬ (jsTruthy parsed.user_intent ∧ st.userIntent = "") := by
      intro hc
      exact h hc.2
    rw [if_neg this]

theorem verify_result_reports_state_intent (st : VerifierState)
    (o : Except Unit ParsedVerification) :
    (st.verify o).1.user_intent = (st.verify o).2.userIntent := by
  match o with
  | Except.error _ => rfl
  | Except.ok parsed => rfl

theorem verifyRun_keeps_nonempty_intent (st : VerifierState)
    (outs : List (Except Unit ParsedVerification)) (h : st.userIntent ≠ "") :
    (st.verifyRun outs).2 = st ∧
    ∀ r ∈ (st.verifyRun outs).1, r.user_intent = st.userIntent := by
  induction outs generalizing st with
  | nil => exact ⟨rfl, by intro r hr; cases hr⟩
  | cons o rest ih =>
    have hstep : (st.verify o).2 = st := verify_keeps_nonempty_intent st o h
    have hres : (st.verify o).1.user_intent = st.userIntent := by
      rw [verify_result_reports_state_intent, hstep]
    have ihr := ih st h
    constructor
    · show (st.verifyRun (o :: rest)).2 = st
      simp only [VerifierState.verifyRun, hstep]
      exact ihr.1
    · intro r hr
      simp only [VerifierState.verifyRun, hstep] at hr
      rcases List.mem_cons.mp hr with h1 | h1
      · rw [h1]; exact hres
      · exact ihr.2 r h1

/-- C8: for every sequence of `verify` calls after a `reset`, the stored user
intent transitions at most once from empty to a non-empty value: splitting
the sequence at any point where the stored intent has become non-empty, the
remaining calls leave it unchanged, and every later result carries that same
intent.  (Starting at the reset value `""`, this is exactly "set once, never
overwritten".) -/
theorem verifier_sticky_intent (pre post : List (Except Unit ParsedVerification))
    (h : ((VerifierState.reset {}).verifyRun pre).2.userIntent ≠ "") :
    ((((VerifierState.reset {}).verifyRun pre).2.verifyRun post).2.userIntent
        = ((VerifierState.reset {}).verifyRun pre).2.userIntent) ∧
    ∀ r ∈ (((VerifierState.reset {}).verifyRun pre).2.verifyRun post).1,
      r.user_intent = ((VerifierState.reset {}).verifyRun pre).2.userIntent := by
  have := verifyRun_keeps_nonempty_intent
    ((VerifierState.reset {}).verifyRun pre).2 post h
  exact ⟨by rw [this.1], this.2⟩

/-- Witness for C8 at a concrete run: the first call extracts intent
"find a capital", the second call's parsed intent "something else" does not
overwrite it and the second result still carries the first intent. -/
theorem verifier_sticky_intent_witness :
    ((VerifierState.reset {}).verifyRun
        [Except.ok { user_intent := some "find a capital" }]).2.userIntent ≠ "" ∧
    ((((VerifierState.reset {}).verifyRun
        [Except.ok { user_intent := some "find a capital" }]).2.verifyRun
        [Except.ok { user_intent := some "something else", should_stop := some true,
                     stop_reason := some "done" }]).2.userIntent
      = "find a capital") := by
  refine ⟨by decide, ?_⟩
  have := verifier_sticky_intent
    [Except.ok { user_intent := some "find a capital" }]
    [Except.ok { user_intent := some "something else", should_stop := some true,
                 stop_reason := some "done" }]
    (by decide)
  rw [this.1]
  decide

/-! ### C4: summarizer fallback -/

/-- Counterexample to C4 as stated: the claim asserts that when the parsed
next speaker matches no roster entry, the result is exactly the deterministic
fallback (summary = prior block ++ "\n\n" ++ "speaker: content").  In the
source (world.ts lines 182-190), a roster mismatch only falls the *next
speaker* back to the human sentinel; the summary and rationale still come
from the parsed response.  Concretely, with roster {GeoBot}, a parsed
response `{summary: "S", next: {id: "X", name: "X"},
recommendation_reason: "R"}` yields summary "S" and rationale "R", while
the claimed fallback has summary `"prior" ++ "\n\n" ++ "GeoBot: Paris."`
and empty rationale; the differing rationale field refutes the equality. -/
theorem summarizer_fallback_counterexample :
    summarizeBlock "prior"
        { id := 2, speaker := "GeoBot", content := "Paris.", timestamp := 0 }
        ["GeoBot"]
        (Except.ok ("raw", { summary := some "S", next_id := some "X",
                             next_name := some "X",
                             recommendation_reason := some "R" }))
      ≠ summarizeFallback "prior"
          { id := 2, speaker := "GeoBot", content := "Paris.", timestamp := 0 } ∧
    (summarizeBlock "prior"
        { id := 2, speaker := "GeoBot", content := "Paris.", timestamp := 0 }
        ["GeoBot"]
        (Except.ok ("raw", { summary := some "S", next_id := some "X",
                             next_name := some "X",
                             recommendation_reason := some "R" }))).next
      = userSentinel := by
  constructor
  · intro h
    have hs := congrArg BlockResult.recommendation_reason h
    exact absurd hs (by decide)
  · rfl

/-- C4 amended: if the model call fails or the response fails to parse as
JSON, the result is exactly the deterministic fallback (summary = prior
block summary ++ "\n\n" ++ "speaker: content" of the new message truncated
to 500 characters, next speaker = the human sentinel, empty rationale).  If
the response parses but the returned next speaker matches no roster entry by
id or name, only the next speaker falls back to the human sentinel; the
summary is the parsed summary (or the raw response truncated to 500
characters when the summary field is absent or empty) and the rationale is
the parsed rationale. -/
theorem summarizer_fallback_amended (currentBlock : String) (msg : Message)
    (agents : List String) (outcome : Except Unit (String × ParsedSummary)) :
    (∀ e, outcome = Except.error e →
      summarizeBlock currentBlock msg agents outcome =
        summarizeFallback currentBlock msg) ∧
    (∀ response parsed, outcome = Except.ok (response, parsed) →
      (availableSpeakers agents).find? (fun s =>
        parsed.next_id = some s.id ∨ parsed.next_name = some s.name) = none →
      summarizeBlock currentBlock msg agents outcome =
        { summary := jsOrElse parsed.summary (response.take 500),
          next := userSentinel,
          recommendation_reason := jsOrEmpty parsed.recommendation_reason }) := by
  constructor
  · intro e he
    subst he
    rfl
  · intro response parsed he hn
    subst he
    simp only [Bool.decide_or] at hn
    simp [summarizeBlock, hn]

/-- Witness for C4 amended: a failed summarizer call with prior block `""`
and accepted reply `GeoBot: Paris.` produces exactly the fallback
`"" ++ "\n\n" ++ "GeoBot: Paris."` with the human sentinel, and a parsed
response recommending an unknown speaker keeps its parsed summary. -/
theorem summarizer_fallback_amended_witness :
    summarizeBlock ""
        { id := 2, speaker := "GeoBot", content := "Paris.", timestamp := 0 }
        ["GeoBot"] (Except.error ())
      = summarizeFallback ""
          { id := 2, speaker := "GeoBot", content := "Paris.", timestamp := 0 } ∧
    summarizeBlock "prior"
        { id := 2, speaker := "GeoBot", content := "Paris.", timestamp := 0 }
        ["GeoBot"]
        (Except.ok ("raw", { summary := some "S", next_id := none,
                             next_name := none,
                             recommendation_reason := none }))
      = { summary := "S", next := userSentinel, recommendation_reason := "" } := by
  constructor
  · exact (summarizer_fallback_amended ""
      { id := 2, speaker := "GeoBot", content := "Paris.", timestamp := 0 }
      ["GeoBot"] (Except.error ())).1 () rfl
  · exact (summarizer_fallback_amended "prior"
      { id := 2, speaker := "GeoBot", content := "Paris.", timestamp := 0 }
      ["GeoBot"]
      (Except.ok ("raw", { summary := some "S", next_id := none,
                           next_name := none,
                           recommendation_reason := none }))).2 "raw" _ rfl (by decide)

/-! ### C3: mainline termination and length bound -/

/-- The store left by a sequence of `addMessage` calls on a fresh DAG. -/
def addAll (msgs : List Message) : MessageDAG :=
  msgs.foldl MessageDAG.addMessage MessageDAG.empty

/-- Counterexample to C3 as stated: `addMessage` accepts arbitrary `replyTo`
references, so a sequence of two `addMessage` calls can build a two-message
accepted cycle (message 1, the root, replies to message 2 and vice versa).
The walk of `getMainHistory` then never stabilises: after |messages| = 2
steps it has not terminated, and the 3-step walk has 3 elements, more than
the total message count — refuting both termination after at most
|messages| steps and the length bound. -/
theorem mainline_termination_counterexample :
    (addAll
        [{ id := 1, speaker := "User", content := "a", timestamp := 0,
           replyTo := some 2, status := some MsgStatus.accepted },
         { id := 2, speaker := "A", content := "b", timestamp := 0,
           replyTo := some 1, status := some MsgStatus.accepted }]).messages.length
      = 2 ∧
    ((addAll
        [{ id := 1, speaker := "User", content := "a", timestamp := 0,
           replyTo := some 2, status := some MsgStatus.accepted },
         { id := 2, speaker := "A", content := "b", timestamp := 0,
           replyTo := some 1, status := some MsgStatus.accepted }]).mainHistoryFuel 3
      (addAll
        [{ id := 1, speaker := "User", content := "a", timestamp := 0,
           replyTo := some 2, status := some MsgStatus.accepted },
         { id := 2, speaker := "A", content := "b", timestamp := 0,
           replyTo := some 1, status := some MsgStatus.accepted }]).rootMessageId).length
      = 3 := by decide

theorem mainHistoryFuel_none (dag : MessageDAG) (f : Nat) :
    dag.mainHistoryFuel f none = [] := by
  cases f <;> rfl

theorem getMessage_of_mem (dag : MessageDAG)
    (hnd : (dag.messages.map Message.id).Nodup) (m : Message)
    (hm : m ∈ dag.messages) : dag.getMessage m.id = some m := by
  unfold MessageDAG.getMessage
  cases hfind : dag.messages.find? (fun x => x.id = m.id) with
  | none =>
    rw [List.find?_eq_none] at hfind
    have := hfind m hm
    simp at this
  | some x =>
    have hx := List.find?_some hfind
    have hxm := List.mem_of_find?_eq_some hfind
    have hxe : x = m := List.inj_on_of_nodup_map hnd hxm hm (by simpa using hx)
    rw [hxe]

theorem pos_unique_of_nodup (msgs : List Message)
    (hnd : (msgs.map Message.id).Nodup) (i j : Nat) (mi mj : Message)
    (hi : msgs.get? i = some mi) (hj : msgs.get? j = some mj)
    (hid : mi.id = mj.id) : i = j := by
  have hi2 : (msgs.map Message.id).get? i = some mi.id := by
    rw [List.get?_map, hi]; rfl
  have hj2 : (msgs.map Message.id).get? j = some mj.id := by
    rw [List.get?_map, hj]; rfl
  have hlt : i < (msgs.map Message.id).length := by
    rw [List.length_map]
    obtain ⟨hlt, -⟩ := List.get?_eq_some.mp hi
    exact hlt
  exact List.get?_inj hlt hnd (by rw [hi2, hj2, hid])

/-- Core walk bound: in a store with distinct ids in which every `replyTo`
refers to a strictly earlier message, the walk of `getMainHistory` starting
at the message in position `i` has the same value at every fuel
`≥ |messages| - i`, and its length is at most `|messages| - i`. -/
theorem mainHistory_walk_bound (dag : MessageDAG)
    (hnd : (dag.messages.map Message.id).Nodup)
    (hord : ∀ i m p, dag.messages.get? i = some m → m.replyTo = some p →
      ∃ j mj, j < i ∧ dag.messages.get? j = some mj ∧ mj.id = p) :
    ∀ d i m, dag.messages.length - i ≤ d → dag.messages.get? i = some m →
      ∀ f1 f2, dag.messages.length - i ≤ f1 → dag.messages.length - i ≤ f2 →
        dag.mainHistoryFuel f1 (some m.id) = dag.mainHistoryFuel f2 (some m.id) ∧
        (dag.mainHistoryFuel f1 (some m.id)).length ≤ dag.messages.length - i := by
  intro d
  induction d with
  | zero =>
    intro i m hle hget
    obtain ⟨hlt, -⟩ := List.get?_eq_some.mp hget
    omega
  | succ d ih =>
    intro i m hle hget f1 f2 hf1 hf2
    obtain ⟨hlt, -⟩ := List.get?_eq_some.mp hget
    have hm : m ∈ dag.messages := List.mem_iff_get?.mpr ⟨i, hget⟩
    have hlook : dag.getMessage m.id = some m := getMessage_of_mem dag hnd m hm
    obtain ⟨g1, rfl⟩ : ∃ g, f1 = g + 1 := ⟨f1 - 1, by omega⟩
    obtain ⟨g2, rfl⟩ : ∃ g, f2 = g + 1 := ⟨f2 - 1, by omega⟩
    have hstep : ∀ g, dag.mainHistoryFuel (g + 1) (some m.id) =
        m :: dag.mainHistoryFuel g
          ((dag.nextAcceptedChild m.id).map (fun c => c.id)) := by
      intro g
      simp only [MessageDAG.mainHistoryFuel, hlook]
    rw [hstep, hstep]
    cases hnext : dag.nextAcceptedChild m.id with
    | none =>
      rw [Option.map_none', mainHistoryFuel_none, mainHistoryFuel_none]
      exact ⟨rfl, by simpa using by omega⟩
    | some c =>
      have hcm : c ∈ dag.messages := by
        have := List.mem_of_find?_eq_some hnext
        exact List.mem_of_mem_filter this
      have hcr : c.replyTo = some m.id := by
        have := List.mem_of_find?_eq_some hnext
        have := List.of_mem_filter this
        simpa using this
      obtain ⟨k, hkget⟩ := List.mem_iff_get?.mp hcm
      obtain ⟨j, mj, hjk, hjget, hjid⟩ := hord k c m.id hkget hcr
      have hji : j = i := pos_unique_of_nodup dag.messages hnd j i mj m hjget hget hjid
      have hik : i < k := by omega
      obtain ⟨hklt, -⟩ := List.get?_eq_some.mp hkget
      have hrec := ih k c (by omega) hkget g1 g2 (by omega) (by omega)
      rw [Option.map_some']
      refine ⟨by rw [hrec.1], ?_⟩
      simp only [List.length_cons]
      have := hrec.2
      omega

theorem addMessage_messages_of_fresh (dag : MessageDAG) (m : Message)
    (h : ¬ m.id ∈ dag.messages.map Message.id) :
    (dag.addMessage m).messages = dag.messages ++ [m] := by
  show mapSet dag.messages m = dag.messages ++ [m]
  unfold mapSet
  rw [if_neg]
  intro hc
  rw [List.any_eq_true] at hc
  obtain ⟨x, hx, hxe⟩ := hc
  exact h (List.mem_map.mpr ⟨x, hx, by simpa using hxe.symm⟩)

theorem addAll_messages_aux (msgs : List Message) :
    ∀ dag : MessageDAG, ((dag.messages ++ msgs).map Message.id).Nodup →
      (msgs.foldl MessageDAG.addMessage dag).messages = dag.messages ++ msgs := by
  induction msgs with
  | nil => intro dag _; simp
  | cons m rest ih =>
    intro dag hnd
    have hfresh : ¬ m.id ∈ dag.messages.map Message.id := by
      intro hc
      rw [List.map_append, List.nodup_append] at hnd
      exact hnd.2.2 hc (by simp)
    have hmsg := addMessage_messages_of_fresh dag m hfresh
    show (rest.foldl MessageDAG.addMessage (dag.addMessage m)).messages
      = dag.messages ++ m :: rest
    rw [ih (dag.addMessage m) (by rw [hmsg]; simpa using hnd), hmsg]
    simp

theorem addAll_messages (msgs : List Message)
    (hnd : (msgs.map Message.id).Nodup) : (addAll msgs).messages = msgs := by
  have := addAll_messages_aux msgs MessageDAG.empty (by simpa using hnd)
  simpa using this

theorem addMessage_root_mem (dag : MessageDAG) (m : Message)
    (h : ∀ r, dag.rootMessageId = some r → ∃ x ∈ dag.messages, x.id = r) :
    ∀ r, (dag.addMessage m).rootMessageId = some r →
      ∃ x ∈ (dag.addMessage m).messages, x.id = r := by
  intro r hr
  have hmem : m ∈ (dag.addMessage m).messages := by
    show m ∈ mapSet dag.messages m
    unfold mapSet
    split_ifs with hc
    · rw [List.any_eq_true] at hc
      obtain ⟨x, hx, hxe⟩ := hc
      refine List.mem_map.mpr ⟨x, hx, ?_⟩
      rw [if_pos (of_decide_eq_true hxe)]
    · simp
  show ∃ x ∈ mapSet dag.messages m, x.id = r
  by_cases hroot : dag.rootMessageId = none ∧ m.speaker = "User"
  · have : (dag.addMessage m).rootMessageId = some m.id := by
      simp only [MessageDAG.addMessage]
      rw [if_pos hroot]
    rw [this] at hr
    exact ⟨m, hmem, by injection hr⟩
  · have : (dag.addMessage m).rootMessageId = dag.rootMessageId := by
      simp only [MessageDAG.addMessage]
      rw [if_neg hroot]
    rw [this] at hr
    obtain ⟨x, hx, hxid⟩ := h r hr
    by_cases hxm : x.id = m.id
    · exact ⟨m, hmem, by rw [← hxm, hxid]⟩
    · refine ⟨x, ?_, hxid⟩
      show x ∈ mapSet dag.messages m
      unfold mapSet
      split_ifs with hc
      · refine List.mem_map.mpr ⟨x, hx, ?_⟩
        rw [if_neg hxm]
      · exact List.mem_append_left _ hx

theorem addAll_root_mem (msgs : List Message) :
    ∀ r, (addAll msgs).rootMessageId = some r →
      ∃ x ∈ (addAll msgs).messages, x.id = r := by
  suffices h : ∀ dag : MessageDAG,
      (∀ r, dag.rootMessageId = some r → ∃ x ∈ dag.messages, x.id = r) →
      ∀ r, (msgs.foldl MessageDAG.addMessage dag).rootMessageId = some r →
        ∃ x ∈ (msgs.foldl MessageDAG.addMessage dag).messages, x.id = r by
    exact h MessageDAG.empty (by intro r hr; cases hr)
  induction msgs with
  | nil => intro dag h; exact h
  | cons m rest ih =>
    intro dag h
    exact ih (dag.addMessage m) (addMessage_root_mem dag m h)

/-- C3 amended: for every store reached by a sequence of `addMessage` calls
in which ids are pairwise distinct and every message's `replyTo` references
an earlier-added message (which holds for all messages the World itself
creates), the walk of `getMainHistory` stabilises at fuel `|messages|` —
i.e. the source's unbounded loop terminates within `|messages|` steps — and
the returned sequence's length never exceeds the total message count.  The
original claim, quantifying over arbitrary `addMessage` sequences, is
refuted by `mainline_termination_counterexample`: `addMessage` does not
validate `replyTo`, so an accepted two-cycle makes the loop diverge. -/
theorem mainline_terminates (msgs : List Message)
    (hnd : (msgs.map Message.id).Nodup)
    (hord : ∀ i m p, msgs.get? i = some m → m.replyTo = some p →
      ∃ j mj, j < i ∧ msgs.get? j = some mj ∧ mj.id = p) :
    ((addAll msgs).getMainHistory).length ≤ (addAll msgs).messages.length ∧
    ∀ f, (addAll msgs).messages.length ≤ f →
      (addAll msgs).mainHistoryFuel f (addAll msgs).rootMessageId
        = (addAll msgs).getMainHistory := by
  have hmsgs : (addAll msgs).messages = msgs := addAll_messages msgs hnd
  have hnd2 : ((addAll msgs).messages.map Message.id).Nodup := by rw [hmsgs]; exact hnd
  have hord2 : ∀ i m p, (addAll msgs).messages.get? i = some m →
      m.replyTo = some p →
      ∃ j mj, j < i ∧ (addAll msgs).messages.get? j = some mj ∧ mj.id = p := by
    rw [hmsgs]; exact hord
  unfold MessageDAG.getMainHistory
  cases hroot : (addAll msgs).rootMessageId with
  | none =>
    rw [mainHistoryFuel_none]
    exact ⟨by simp, by intro f _; rw [mainHistoryFuel_none]⟩
  | some r =>
    obtain ⟨x, hx, hxid⟩ := addAll_root_mem msgs r hroot
    obtain ⟨i, hget⟩ := List.mem_iff_get?.mp hx
    subst hxid
    have hbound := mainHistory_walk_bound (addAll msgs) hnd2 hord2
      ((addAll msgs).messages.length - i) i x (by omega) hget
    constructor
    · have := (hbound (addAll msgs).messages.length
        (addAll msgs).messages.length (by omega) (by omega)).2
      omega
    · intro f hf
      exact (hbound f (addAll msgs).messages.length (by omega) (by omega)).1

/-- Witness for C3 amended on a concrete three-message store: a root user
message with two replies, the accepted one extending the mainline. -/
theorem mainline_terminates_witness :
    ((addAll
        [{ id := 1, speaker := "User", content := "q", timestamp := 0 },
         { id := 2, speaker := "A", content := "r1", timestamp := 1,
           replyTo := some 1, status := some MsgStatus.accepted },
         { id := 3, speaker := "B", content := "r2", timestamp := 2,
           replyTo := some 1, status := some MsgStatus.dropped }]).getMainHistory).length
      ≤ 3 := by
  have h := mainline_terminates
    [{ id := 1, speaker := "User", content := "q", timestamp := 0 },
     { id := 2, speaker := "A", content := "r1", timestamp := 1,
       replyTo := some 1, status := some MsgStatus.accepted },
     { id := 3, speaker := "B", content := "r2", timestamp := 2,
       replyTo := some 1, status := some MsgStatus.dropped }]
    (by decide)
    (by
      intro i m p hget hrep
      match i, hget with
      | 0, hget =>
        injection hget with hget
        rw [← hget] at hrep
        cases hrep
      | 1, hget =>
        injection hget with hget
        rw [← hget] at hrep
        have hp : p = 1 := by injection hrep with h; omega
        subst hp
        exact ⟨0, _, by omega, rfl, rfl⟩
      | 2, hget =>
        injection hget with hget
        rw [← hget] at hrep
        have hp : p = 1 := by injection hrep with h; omega
        subst hp
        exact ⟨0, _, by omega, rfl, rfl⟩)
  calc ((addAll _).getMainHistory).length
      ≤ (addAll _).messages.length := h.1
    _ ≤ 3 := by decide

/-! ### C5: sequential-loop bound and halt conditions -/

theorem runRounds_length_le (oracles : List RoundOracle) :
    ∀ fuel round st last,
      ((World.runRounds oracles round fuel st last).2).length ≤ fuel := by
  intro fuel
  induction fuel with
  | zero =>
    intro round st last
    simp [World.runRounds]
  | succ n ih =>
    intro round st last
    simp only [World.runRounds]
    split
    · simp
    · split
      · simp
      · simp only [List.length_cons]
        exact Nat.succ_le_succ (ih _ _ _)

theorem runRounds_halt (oracles : List RoundOracle) (round fuel : Nat)
    (st : WorldState) (last : Message)
    (h : World.roundHalts (World.roundStart oracles round st) last = true) :
    World.runRounds oracles round (fuel + 1) st last
      = (World.roundStart oracles round st, []) := by
  simp only [World.runRounds, h, if_true]

/-- C5: for every invocation of `processAgentResponsesQueue`, the loop
executes at most 10 rounds regardless of the oracle outcomes (at most 10
agent messages are appended), and in each round — the self-similar
`runRounds` at any round index and remaining fuel — the loop halts, invoking
no agent, whenever at the round boundary the stop flag is set, the
recommended next speaker has the sentinel id "user", the recommended name
equals the last message's speaker, or no roster agent carries the
recommended name (the disjunction `roundHalts`). -/
theorem sequential_loop_bound (oracles : List RoundOracle) :
    (∀ st msg, ((World.processAgentResponsesQueue st msg oracles).2).length ≤ 10) ∧
    (∀ round fuel st last,
      World.roundHalts (World.roundStart oracles round st) last = true →
      World.runRounds oracles round (fuel + 1) st last
        = (World.roundStart oracles round st, [])) := by
  constructor
  · intro st msg
    exact runRounds_length_le oracles maxRounds 0 st msg
  · intro round fuel st last h
    exact runRounds_halt oracles round fuel st last h

/-- Witness for C5 on a fresh World, whose default recommendation is the
human sentinel: the loop halts immediately with no agent message. -/
theorem sequential_loop_bound_witness :
    World.roundHalts (World.roundStart [] 0 (World.init ["A"]))
      { id := 1, speaker := "User", content := "q", timestamp := 0 } = true ∧
    World.runRounds [] 0 10 (World.init ["A"])
      { id := 1, speaker := "User", content := "q", timestamp := 0 }
      = (World.roundStart [] 0 (World.init ["A"]), ([] : List Message)) :=
  ⟨by decide,
   (sequential_loop_bound []).2 0 9 (World.init ["A"])
     { id := 1, speaker := "User", content := "q", timestamp := 0 } (by decide)⟩

/-! ### C10: broadcast with no accepted reply is a no-op on conversation state -/

/-- `World.broadcastToAgents` (world.ts lines 232-301) as a whole: the
`processSpecificAgent` calls for the roster settle in some order (the
`completions` list of agent name, outcome and timestamp, covering any
completion order of the parallel calls), then the accepted reply is looked
up and, if present, summarisation and verification are triggered
(`broadcastFinish`). -/
def World.broadcastToAgents (st : WorldState) (userMessage : Message)
    (completions : List (String × Except Unit String × Nat))
    (summ : Except Unit (String × ParsedSummary)) :
    WorldState × Option Message × Bool :=
  let st1 := completions.foldl
    (fun s c => World.processSpecificAgent s userMessage.content c.1 c.2.1 c.2.2) st
  World.broadcastFinish st1 userMessage.id summ

theorem processSpecificAgent_frame (st : WorldState) (content agentName : String)
    (outcome : Except Unit String) (ts : Nat) :
    (World.processSpecificAgent st content agentName outcome ts).currentBlock
        = st.currentBlock ∧
    (World.processSpecificAgent st content agentName outcome ts).nextSpeaker
        = st.nextSpeaker ∧
    (World.processSpecificAgent st content agentName outcome ts).shouldStopConversation
        = st.shouldStopConversation ∧
    (World.processSpecificAgent st content agentName outcome ts).stopReason
        = st.stopReason ∧
    (World.processSpecificAgent st content agentName outcome ts).currentConversationMessageCount
        = st.currentConversationMessageCount ∧
    (World.processSpecificAgent st content agentName outcome ts).agents
        = st.agents := by
  simp only [World.processSpecificAgent]
  repeat' split
  all_goals exact ⟨rfl, rfl, rfl, rfl, rfl, rfl⟩

theorem broadcast_completions_frame (userMessage : Message)
    (completions : List (String × Except Unit String × Nat)) :
    ∀ st : WorldState,
      let st1 := completions.foldl
        (fun s c => World.processSpecificAgent s userMessage.content c.1 c.2.1 c.2.2) st
      st1.currentBlock = st.currentBlock ∧
      st1.nextSpeaker = st.nextSpeaker ∧
      st1.shouldStopConversation = st.shouldStopConversation ∧
      st1.stopReason = st.stopReason ∧
      st1.currentConversationMessageCount = st.currentConversationMessageCount ∧
      st1.agents = st.agents := by
  induction completions with
  | nil => intro st; exact ⟨rfl, rfl, rfl, rfl, rfl, rfl⟩
  | cons c rest ih =>
    intro st
    have h1 := processSpecificAgent_frame st userMessage.content c.1 c.2.1 c.2.2
    have h2 := ih (World.processSpecificAgent st userMessage.content c.1 c.2.1 c.2.2)
    simp only [List.foldl_cons]
    exact ⟨h2.1.trans h1.1, h2.2.1.trans h1.2.1, h2.2.2.1.trans h1.2.2.1,
      h2.2.2.2.1.trans h1.2.2.2.1, h2.2.2.2.2.1.trans h1.2.2.2.2.1,
      h2.2.2.2.2.2.trans h1.2.2.2.2.2⟩

/-- C10: for every call to `broadcastToAgents`, if after all agent
completions no reply to the given human message has status accepted (for
example, every agent call failed), the call returns `null`, leaves the block
summary, next-speaker recommendation, stop flag, stop reason and
accepted-message counter unchanged, and issues no summarizer or verifier
call (the issued-calls flag is false). -/
theorem broadcast_no_accept_frame (st : WorldState) (userMessage : Message)
    (completions : List (String × Except Unit String × Nat))
    (summ : Except Unit (String × ParsedSummary))
    (h : (completions.foldl
        (fun s c => World.processSpecificAgent s userMessage.content c.1 c.2.1 c.2.2)
        st).dag.messages.find? (fun m =>
          m.replyTo = some userMessage.id ∧ m.status = some MsgStatus.accepted)
      = none) :
    (World.broadcastToAgents st userMessage completions summ).2.1 = none ∧
    (World.broadcastToAgents st userMessage completions summ).2.2 = false ∧
    (World.broadcastToAgents st userMessage completions summ).1.currentBlock
        = st.currentBlock ∧
    (World.broadcastToAgents st userMessage completions summ).1.nextSpeaker
        = st.nextSpeaker ∧
    (World.broadcastToAgents st userMessage completions summ).1.shouldStopConversation
        = st.shouldStopConversation ∧
    (World.broadcastToAgents st userMessage completions summ).1.stopReason
        = st.stopReason ∧
    (World.broadcastToAgents st userMessage completions summ).1.currentConversationMessageCount
        = st.currentConversationMessageCount := by
  have hframe := broadcast_completions_frame userMessage completions st
  unfold World.broadcastToAgents World.broadcastFinish
  simp only [h]
  exact ⟨trivial, trivial, hframe.1, hframe.2.1, hframe.2.2.1, hframe.2.2.2.1,
    hframe.2.2.2.2.1⟩

/-- Witness for C10: one user message broadcast to roster {A, B} where both
agent calls fail leaves the conversation state untouched and returns null. -/
theorem broadcast_no_accept_frame_witness :
    ((World.addUserMessage (World.init ["A", "B"]) "q" 0).1.dag.messages.find?
        (fun m => m.replyTo = some 1 ∧ m.status = some MsgStatus.accepted) = none
      → True) ∧
    (World.broadcastToAgents (World.addUserMessage (World.init ["A", "B"]) "q" 0).1
        (World.addUserMessage (World.init ["A", "B"]) "q" 0).2
        [("A", Except.error (), 1), ("B", Except.error (), 2)]
        (Except.error ())).2.1 = none := by
  refine ⟨fun _ => trivial, ?_⟩
  exact (broadcast_no_accept_frame
    (World.addUserMessage (World.init ["A", "B"]) "q" 0).1
    (World.addUserMessage (World.init ["A", "B"]) "q" 0).2
    [("A", Except.error (), 1), ("B", Except.error (), 2)]
    (Except.error ()) (by decide)).1

/-! ### C9: the mainline contains no human message beyond the root -/

/-- Well-formedness of a World owned by roster `A`: the roster is `A`, all
stored ids are bounded by the id counter, ids are pairwise distinct, and
every accepted message was authored by an agent (speaker ≠ "User"). -/
def WF9 (A : List String) (st : WorldState) : Prop :=
  st.agents = A ∧
  (∀ m ∈ st.dag.messages, m.id ≤ st.messageIdCounter) ∧
  (st.dag.messages.map Message.id).Nodup ∧
  (∀ m ∈ st.dag.messages, m.status = some MsgStatus.accepted → m.speaker ≠ "User")

theorem dag_add_fresh (dag : MessageDAG) (counter : Nat) (m : Message)
    (hall : ∀ x ∈ dag.messages, x.id ≤ counter)
    (hnd : (dag.messages.map Message.id).Nodup)
    (hid : m.id = counter + 1) :
    (dag.addMessage m).messages = dag.messages ++ [m] ∧
    (∀ x ∈ (dag.addMessage m).messages, x.id ≤ counter + 1) ∧
    ((dag.addMessage m).messages.map Message.id).Nodup := by
  have hfresh : ¬ m.id ∈ dag.messages.map Message.id := by
    intro hc
    obtain ⟨x, hx, hxe⟩ := List.mem_map.mp hc
    have := hall x hx
    omega
  have hmsg := addMessage_messages_of_fresh dag m hfresh
  refine ⟨hmsg, ?_, ?_⟩
  · intro x hx
    rw [hmsg] at hx
    rcases List.mem_append.mp hx with h1 | h1
    · have := hall x h1; omega
    · rw [List.mem_singleton.mp h1]; omega
  · rw [hmsg, List.map_append, List.nodup_append]
    exact ⟨hnd, List.nodup_singleton _, by
      intro a ha hb
      rw [List.mem_map] at hb
      obtain ⟨x, hx, hxe⟩ := hb
      rw [List.mem_singleton.mp hx] at hxe
      rw [← hxe] at ha
      exact hfresh ha⟩

theorem agent_found_mem (agents : List String) (name : String)
    (h : (agents.find? (fun a => a = name)).isSome) : name ∈ agents := by
  rw [List.find?_isSome] at h
  obtain ⟨x, hx, hxe⟩ := h
  have : x = name := by simpa using hxe
  rw [← this]
  exact hx

theorem applyVerification_preserves (st : WorldState) (v : VerificationResult) :
    (World.applyVerification st v).agents = st.agents ∧
    (World.applyVerification st v).dag = st.dag ∧
    (World.applyVerification st v).messageIdCounter = st.messageIdCounter := by
  unfold World.applyVerification
  split_ifs <;> exact ⟨rfl, rfl, rfl⟩

theorem broadcastFinish_preserves (st : WorldState) (uid : Nat)
    (summ : Except Unit (String × ParsedSummary)) :
    (World.broadcastFinish st uid summ).1.agents = st.agents ∧
    (World.broadcastFinish st uid summ).1.dag = st.dag ∧
    (World.broadcastFinish st uid summ).1.messageIdCounter = st.messageIdCounter := by
  simp only [World.broadcastFinish]
  split <;> exact ⟨rfl, rfl, rfl⟩

theorem roundStart_preserves (oracles : List RoundOracle) (round : Nat)
    (st : WorldState) :
    (World.roundStart oracles round st).agents = st.agents ∧
    (World.roundStart oracles round st).dag = st.dag ∧
    (World.roundStart oracles round st).messageIdCounter = st.messageIdCounter := by
  unfold World.roundStart
  split
  · exact ⟨rfl, rfl, rfl⟩
  · exact applyVerification_preserves st _

theorem WF9_roundStart (A : List String) (oracles : List RoundOracle)
    (round : Nat) (st : WorldState) (h : WF9 A st) :
    WF9 A (World.roundStart oracles round st) := by
  obtain ⟨ha, hd, hc⟩ := roundStart_preserves oracles round st
  exact ⟨ha.trans h.1, by rw [hd, hc]; exact h.2.1, by rw [hd]; exact h.2.2.1,
    by rw [hd]; exact h.2.2.2⟩

theorem WF9_addUser (A : List String) (st : WorldState) (h : WF9 A st)
    (content : String) (ts : Nat) :
    WF9 A (World.addUserMessage st content ts).1 := by
  obtain ⟨hA, hall, hnd, hacc⟩ := h
  obtain ⟨hmsg, hall2, hnd2⟩ := dag_add_fresh st.dag st.messageIdCounter
    { id := st.messageIdCounter + 1, speaker := "User", content := content,
      timestamp := ts } hall hnd rfl
  refine ⟨hA, hall2, hnd2, ?_⟩
  intro m hm hst
  simp only [World.addUserMessage] at hm
  rw [hmsg] at hm
  rcases List.mem_append.mp hm with h1 | h1
  · exact hacc m h1 hst
  · rw [List.mem_singleton.mp h1] at hst
    cases hst

theorem WF9_specific (A : List String) (hU : ¬ "User" ∈ A) (st : WorldState)
    (h : WF9 A st) (content agentName : String) (outcome : Except Unit String)
    (ts : Nat) : WF9 A (World.processSpecificAgent st content agentName outcome ts) := by
  obtain ⟨hA, hall, hnd, hacc⟩ := h
  simp only [World.processSpecificAgent]
  split
  · exact ⟨hA, hall, hnd, hacc⟩
  next um hum =>
    split
    next hfound =>
      cases outcome with
      | error e => exact ⟨hA, hall, hnd, hacc⟩
      | ok replyContent =>
        have hname : agentName ∈ A := by
          rw [← hA]; exact agent_found_mem st.agents agentName hfound
        obtain ⟨hmsg, hall2, hnd2⟩ := dag_add_fresh st.dag st.messageIdCounter
          { id := st.messageIdCounter + 1, speaker := agentName,
            content := replyContent, timestamp := ts, replyTo := some um.id,
            status := some (if ¬ um.id ∈ st.firstResponseReceived then
              MsgStatus.accepted else MsgStatus.dropped) } hall hnd rfl
        refine ⟨hA, hall2, hnd2, ?_⟩
        intro m hm hst
        rw [hmsg] at hm
        rcases List.mem_append.mp hm with h1 | h1
        · exact hacc m h1 hst
        · rw [List.mem_singleton.mp h1]
          intro hsp
          have h2 : agentName = "User" := hsp
          rw [h2] at hname
          exact hU hname
    next => exact ⟨hA, hall, hnd, hacc⟩

theorem WF9_runRounds (A : List String) (hU : ¬ "User" ∈ A)
    (oracles : List RoundOracle) :
    ∀ fuel round st last, WF9 A st →
      WF9 A (World.runRounds oracles round fuel st last).1 := by
  intro fuel
  induction fuel with
  | zero => intro round st last h; exact h
  | succ n ih =>
    intro round st last h
    have h1 : WF9 A (World.roundStart oracles round st) :=
      WF9_roundStart A oracles round st h
    simp only [World.runRounds]
    split
    · exact h1
    next hh =>
      split
      next e hout => exact h1
      next content hout =>
        obtain ⟨hA, hall, hnd, hacc⟩ := h1
        have hfound : ((World.roundStart oracles round st).agents.find?
            (fun a => a = (World.roundStart oracles round st).nextSpeaker.name)).isSome := by
          unfold World.roundHalts at hh
          simp only [Bool.or_eq_true, not_or] at hh
          rw [Option.isSome_iff_ne_none]
          intro hopt
          apply hh.2
          rw [hopt]
          rfl
        have hspeaker : (World.roundStart oracles round st).nextSpeaker.name ∈ A := by
          rw [← hA]
          exact agent_found_mem _ _ hfound
        obtain ⟨hmsg, hall2, hnd2⟩ := dag_add_fresh
          (World.roundStart oracles round st).dag
          (World.roundStart oracles round st).messageIdCounter
          { id := (World.roundStart oracles round st).messageIdCounter + 1,
            speaker := (World.roundStart oracles round st).nextSpeaker.name,
            content := content,
            timestamp := (oracles.getD round {}).ts,
            replyTo := some last.id, status := some MsgStatus.accepted }
          hall hnd rfl
        refine ih (round + 1) _ _ ⟨hA, hall2, hnd2, ?_⟩
        intro m hm hst
        rw [hmsg] at hm
        rcases List.mem_append.mp hm with hmem | hmem
        · exact hacc m hmem hst
        · rw [List.mem_singleton.mp hmem]
          intro hsp
          have h2 : (World.roundStart oracles round st).nextSpeaker.name = "User" := hsp
          rw [h2] at hspeaker
          exact hU hspeaker

theorem WF9_bcastFinish (A : List String) (st : WorldState) (h : WF9 A st)
    (uid : Nat) (summ : Except Unit (String × ParsedSummary)) :
    WF9 A (World.broadcastFinish st uid summ).1 := by
  obtain ⟨ha, hd, hc⟩ := broadcastFinish_preserves st uid summ
  exact ⟨ha.trans h.1, by rw [hd, hc]; exact h.2.1, by rw [hd]; exact h.2.2.1,
    by rw [hd]; exact h.2.2.2⟩

theorem WF9_execOp (A : List String) (hU : ¬ "User" ∈ A) (st : WorldState)
    (h : WF9 A st) : ∀ op, WF9 A (World.execOp st op)
  | WOp.addUser c ts => WF9_addUser A st h c ts
  | WOp.specific c a o ts => WF9_specific A hU st h c a o ts
  | WOp.bcastFinish uid summ => WF9_bcastFinish A st h uid summ
  | WOp.seq im oracles => WF9_runRounds A hU oracles maxRounds 0 st im h
  | WOp.resolve v => by
    show WF9 A (World.applyVerification st v)
    obtain ⟨ha, hd, hc⟩ := applyVerification_preserves st v
    exact ⟨ha.trans h.1, by rw [hd, hc]; exact h.2.1, by rw [hd]; exact h.2.2.1,
      by rw [hd]; exact h.2.2.2⟩
  | WOp.clear => by
    show WF9 A (World.clearHistory st)
    refine ⟨h.1, ?_, ?_, ?_⟩
    · intro m hm; cases hm
    · exact List.nodup_nil
    · intro m hm; cases hm

theorem WF9_execTrace (A : List String) (hU : ¬ "User" ∈ A) :
    ∀ (ops : List WOp) (st : WorldState), WF9 A st →
      WF9 A (World.execTrace st ops) := by
  intro ops
  induction ops with
  | nil => intro st h; exact h
  | cons op rest ih =>
    intro st h
    exact ih (World.execOp st op) (WF9_execOp A hU st h op)

theorem WF9_init (A : List String) : WF9 A (World.init A) := by
  refine ⟨rfl, ?_, ?_, ?_⟩
  · intro m hm; cases hm
  · exact List.nodup_nil
  · intro m hm; cases hm

/-- Every message of the walk below the starting point — i.e. every element
reached through `nextAcceptedChild` — has status accepted. -/
theorem mainHistory_below_accepted (dag : MessageDAG)
    (hnd : (dag.messages.map Message.id).Nodup) :
    ∀ fuel id m,
      m ∈ dag.mainHistoryFuel fuel ((dag.nextAcceptedChild id).map (fun c => c.id)) →
      m.status = some MsgStatus.accepted := by
  intro fuel
  induction fuel with
  | zero =>
    intro id m hm
    simp [MessageDAG.mainHistoryFuel] at hm
  | succ n ih =>
    intro id m hm
    cases hnext : dag.nextAcceptedChild id with
    | none =>
      rw [hnext, Option.map_none', mainHistoryFuel_none] at hm
      cases hm
    | some c =>
      rw [hnext, Option.map_some'] at hm
      have hcm : c ∈ dag.messages :=
        List.mem_of_mem_filter (List.mem_of_find?_eq_some hnext)
      have hcacc : c.status = some MsgStatus.accepted := by
        have := List.find?_some hnext
        simpa using this
      have hlook : dag.getMessage c.id = some c := getMessage_of_mem dag hnd c hcm
      simp only [MessageDAG.mainHistoryFuel, hlook] at hm
      rcases List.mem_cons.mp hm with h1 | h1
      · rw [h1]; exact hcacc
      · exact ih c.id m h1

/-- Every element of the walk is a stored message. -/
theorem mainHistory_mem (dag : MessageDAG) :
    ∀ fuel oid m, m ∈ dag.mainHistoryFuel fuel oid → m ∈ dag.messages := by
  intro fuel
  induction fuel with
  | zero => intro oid m hm; cases hm
  | succ n ih =>
    intro oid m hm
    match oid with
    | none => cases hm
    | some id =>
      cases hlook : dag.getMessage id with
      | none =>
        simp only [MessageDAG.mainHistoryFuel, hlook] at hm
        cases hm
      | some x =>
        simp only [MessageDAG.mainHistoryFuel, hlook] at hm
        rcases List.mem_cons.mp hm with h1 | h1
        · rw [h1]; exact List.mem_of_find?_eq_some hlook
        · exact ih _ m h1

theorem mainHistory_tail_accepted (dag : MessageDAG)
    (hnd : (dag.messages.map Message.id).Nodup) :
    ∀ fuel oid m, m ∈ (dag.mainHistoryFuel fuel oid).tail →
      m.status = some MsgStatus.accepted := by
  intro fuel oid m hm
  match fuel, oid with
  | 0, _ => cases hm
  | f + 1, none => cases hm
  | f + 1, some id =>
    cases hlook : dag.getMessage id with
    | none =>
      simp only [MessageDAG.mainHistoryFuel, hlook] at hm
      cases hm
    | some x =>
      simp only [MessageDAG.mainHistoryFuel, hlook, List.tail_cons] at hm
      exact mainHistory_below_accepted dag hnd f id m hm

/-- C9: messages appended by `addUserMessage` never carry a `replyTo`
reference (nor a status), `MessageDAG.addMessage` never moves an
already-set root, and consequently, over any sequence of World operations
on a roster that does not contain the reserved name "User", every message
of the mainline except the first has an agent speaker — later human
messages never appear in `getMainHistory()` (at any walk fuel). -/
theorem mainline_single_human (roster : List String) (ops : List WOp)
    (hU : ¬ "User" ∈ roster) :
    (∀ st content ts, (World.addUserMessage st content ts).2.replyTo = none ∧
      (World.addUserMessage st content ts).2.status = none) ∧
    (∀ (dag : MessageDAG) (m : Message) (r : Nat), dag.rootMessageId = some r →
      (dag.addMessage m).rootMessageId = some r) ∧
    (∀ fuel m,
      m ∈ ((World.execTrace (World.init roster) ops).dag.mainHistoryFuel fuel
            (World.execTrace (World.init roster) ops).dag.rootMessageId).tail →
      m.speaker ≠ "User") := by
  refine ⟨fun st content ts => ⟨rfl, rfl⟩, ?_, ?_⟩
  · intro dag m r hroot
    simp only [MessageDAG.addMessage]
    rw [if_neg]
    · exact hroot
    · intro hc
      rw [hroot] at hc
      cases hc.1
  · intro fuel m hm
    have hwf := WF9_execTrace roster hU ops (World.init roster) (WF9_init roster)
    have hacc := mainHistory_tail_accepted
      (World.execTrace (World.init roster) ops).dag hwf.2.2.1 fuel
      (World.execTrace (World.init roster) ops).dag.rootMessageId m hm
    have hmem : m ∈ (World.execTrace (World.init roster) ops).dag.messages :=
      mainHistory_mem (World.execTrace (World.init roster) ops).dag fuel
        (World.execTrace (World.init roster) ops).dag.rootMessageId m
        (List.mem_of_mem_tail hm)
    exact hwf.2.2.2 m hmem hacc

/-- Witness for C9: after a user message and one accepted agent reply, the
second mainline element is the agent reply, and the theorem yields that it
is not a human message. -/
theorem mainline_single_human_witness :
    ¬ "User" ∈ ["A"] ∧
    ({ id := 2, speaker := "A", content := "r", timestamp := 1, replyTo := some 1,
       status := some MsgStatus.accepted } : Message).speaker ≠ "User" := by
  constructor
  · decide
  · exact (mainline_single_human ["A"]
      [WOp.addUser "q" 0, WOp.specific "q" "A" (Except.ok "r") 1]
      (by decide)).2.2 2
      { id := 2, speaker := "A", content := "r", timestamp := 1, replyTo := some 1,
        status := some MsgStatus.accepted }
      (by decide)

/-! ### C1: single-acceptance invariant -/

/-- Counterexample to C1 as stated: the single-acceptance invariant does not
survive arbitrary sequences of the listed operations.  After
`addUserMessage "q"` (message 1), a broadcast in which agent A answers first
(message 2, accepted) and agent B second (message 3, dropped), and a
summarizer recommendation of B, calling `processAgentResponsesQueue` on the
*user* message (rather than on the accepted reply, as the HTTP routes do)
appends a second *accepted* reply to message 1: the loop marks every reply
it creates accepted without consulting the per-parent first-response claim.
The parent with id 1 ends with two accepted children. -/
theorem single_acceptance_counterexample :
    acceptedCount
      (World.execTrace (World.init ["A", "B"])
        [WOp.addUser "q" 0,
         WOp.specific "q" "A" (Except.ok "ra") 1,
         WOp.specific "q" "B" (Except.ok "rb") 2,
         WOp.bcastFinish 1 (Except.ok ("",
           { summary := some "s", next_id := some "B", next_name := some "B",
             recommendation_reason := some "x" })),
         WOp.seq { id := 1, speaker := "User", content := "q", timestamp := 0 }
           [{ resolve := none, agentOutcome := Except.ok "again", ts := 3,
              summ := Except.ok ("",
                { summary := some "t", next_id := some "user",
                  next_name := some "User",
                  recommendation_reason := some "y" }) }]]).dag
      1 = 2 := by decide

theorem accCount_append (msgs : List Message) (m : Message) (p : Nat) :
    accCount (msgs ++ [m]) p =
      accCount msgs p +
        (if m.replyTo = some p ∧ m.status = some MsgStatus.accepted then 1 else 0) := by
  unfold accCount
  rw [List.filter_append, List.length_append]
  congr 1
  split_ifs with h <;> simp [List.filter_cons, h]

theorem accCount_zero (msgs : List Message) (q : Nat)
    (h : ∀ m ∈ msgs, m.replyTo ≠ some q) : accCount msgs q = 0 := by
  unfold accCount
  rw [List.length_eq_zero, List.filter_eq_nil_iff]
  intro m hm
  simp only [decide_eq_true_eq, not_and]
  intro hc
  exact absurd hc (h m hm)

/-- Store sanity for the single-acceptance proof: all ids are bounded by the
id counter, ids are pairwise distinct, and every reply references a message
with a strictly smaller id (parents precede children). -/
def DagInv (msgs : List Message) (counter : Nat) : Prop :=
  (∀ m ∈ msgs, m.id ≤ counter) ∧
  (msgs.map Message.id).Nodup ∧
  (∀ m ∈ msgs, ∀ p, m.replyTo = some p → p < m.id)

theorem accCount_zero_of_ge (msgs : List Message) (counter q : Nat)
    (hinv : DagInv msgs counter) (hq : counter ≤ q) : accCount msgs q = 0 := by
  apply accCount_zero
  intro m hm hc
  have h1 := hinv.2.2 m hm q hc
  have h2 := hinv.1 m hm
  omega

theorem DagInv_append (msgs : List Message) (counter : Nat) (m : Message)
    (hinv : DagInv msgs counter) (hid : m.id = counter + 1)
    (hrep : ∀ p, m.replyTo = some p → p < m.id) :
    DagInv (msgs ++ [m]) (counter + 1) := by
  obtain ⟨hall, hnd, hlt⟩ := hinv
  refine ⟨?_, ?_, ?_⟩
  · intro x hx
    rcases List.mem_append.mp hx with h1 | h1
    · have := hall x h1; omega
    · rw [List.mem_singleton.mp h1]; omega
  · rw [List.map_append, List.nodup_append]
    refine ⟨hnd, List.nodup_singleton _, ?_⟩
    intro a ha hb
    obtain ⟨x, hx, hxe⟩ := List.mem_map.mp hb
    rw [List.mem_singleton.mp hx] at hxe
    obtain ⟨y, hy, hye⟩ := List.mem_map.mp ha
    have := hall y hy
    omega
  · intro x hx p hp
    rcases List.mem_append.mp hx with h1 | h1
    · exact hlt x h1 p hp
    · rw [List.mem_singleton.mp h1] at hp ⊢
      exact hrep p hp

theorem addMessage_messages_of_inv (dag : MessageDAG) (counter : Nat)
    (m : Message) (hall : ∀ x ∈ dag.messages, x.id ≤ counter)
    (hid : m.id = counter + 1) :
    (dag.addMessage m).messages = dag.messages ++ [m] := by
  apply addMessage_messages_of_fresh
  intro hc
  obtain ⟨x, hx, hxe⟩ := List.mem_map.mp hc
  have := hall x hx
  omega

/-! The routes' call pattern (routes/chat.ts and routes/threads.ts): a user
message is ingested with `addUserMessage` and then either handed directly to
the sequential loop, or broadcast to the roster with the sequential loop
started on the accepted broadcast reply (if any). -/

inductive ConvMode where
  | chatSeq (oracles : List RoundOracle)
  | broadcast (completions : List (String × Except Unit String × Nat))
      (summ : Except Unit (String × ParsedSummary)) (oracles : List RoundOracle)

/-- One conversation segment as the routes drive it: optionally some pending
background verifications resolve first, then the user message is added and
processed in one of the two route modes. -/
structure Segment where
  resolves : List VerificationResult := []
  content : String
  ts : Nat := 0
  mode : ConvMode

def World.execSegment (st : WorldState) (seg : Segment) : WorldState :=
  let st0 := seg.resolves.foldl World.applyVerification st
  let p := World.addUserMessage st0 seg.content seg.ts
  match seg.mode with
  | ConvMode.chatSeq oracles => (World.processAgentResponsesQueue p.1 p.2 oracles).1
  | ConvMode.broadcast completions summ oracles =>
    let st2 := completions.foldl
      (fun s c => World.processSpecificAgent s seg.content c.1 c.2.1 c.2.2) p.1
    let fin := World.broadcastFinish st2 p.2.id summ
    match fin.2.1 with
    | some acc => (World.processAgentResponsesQueue fin.1 acc oracles).1
    | none => fin.1

def World.execSegments (roster : List String) (segs : List Segment) : WorldState :=
  segs.foldl World.execSegment (World.init roster)

/-- Post-state of the single-acceptance invariant proof: the roster is `A`,
the store is sane, and every parent has at most one accepted reply. -/
def C1Post (A : List String) (st : WorldState) : Prop :=
  st.agents = A ∧
  DagInv st.dag.messages st.messageIdCounter ∧
  ∀ p, accCount st.dag.messages p ≤ 1

theorem C1_runRounds (A : List String) (oracles : List RoundOracle) :
    ∀ fuel round st (last : Message),
      st.agents = A →
      DagInv st.dag.messages st.messageIdCounter →
      (∀ p, accCount st.dag.messages p ≤ 1) →
      accCount st.dag.messages last.id = 0 →
      last.id ≤ st.messageIdCounter →
      C1Post A (World.runRounds oracles round fuel st last).1 := by
  intro fuel
  induction fuel with
  | zero => intro round st last hA h1 h2 h3 h4; exact ⟨hA, h1, h2⟩
  | succ n ih =>
    intro round st last hA h1 h2 h3 h4
    obtain ⟨hra, hrd, hrc⟩ := roundStart_preserves oracles round st
    simp only [World.runRounds]
    set stR := World.roundStart oracles round st with hstR
    split
    · exact ⟨hra.trans hA, by rw [hrd, hrc]; exact h1, by rw [hrd]; exact h2⟩
    next hh =>
      split
      next e hout =>
        exact ⟨hra.trans hA, by rw [hrd, hrc]; exact h1, by rw [hrd]; exact h2⟩
      next content hout =>
        have h1R : DagInv stR.dag.messages stR.messageIdCounter := by
          rw [hrd, hrc]; exact h1
        have h2R : ∀ p, accCount stR.dag.messages p ≤ 1 := by
          rw [hrd]; exact h2
        have h3R : accCount stR.dag.messages last.id = 0 := by
          rw [hrd]; exact h3
        have h4R : last.id ≤ stR.messageIdCounter := by
          rw [hrc]; exact h4
        have hmsgs := addMessage_messages_of_inv stR.dag stR.messageIdCounter
          { id := stR.messageIdCounter + 1, speaker := stR.nextSpeaker.name,
            content := content, timestamp := (oracles.getD round {}).ts,
            replyTo := some last.id, status := some MsgStatus.accepted }
          h1R.1 rfl
        have hDag2 : DagInv (stR.dag.messages ++
            [{ id := stR.messageIdCounter + 1, speaker := stR.nextSpeaker.name,
               content := content, timestamp := (oracles.getD round {}).ts,
               replyTo := some last.id, status := some MsgStatus.accepted }])
            (stR.messageIdCounter + 1) := by
          refine DagInv_append _ _ _ h1R rfl ?_
          intro p hp
          injection hp with hp
          show p < stR.messageIdCounter + 1
          omega
        refine ih (round + 1) _
          { id := stR.messageIdCounter + 1, speaker := stR.nextSpeaker.name,
            content := content, timestamp := (oracles.getD round {}).ts,
            replyTo := some last.id, status := some MsgStatus.accepted }
          ?_ ?_ ?_ ?_ ?_
        · exact hra.trans hA
        · show DagInv (stR.dag.addMessage
            { id := stR.messageIdCounter + 1, speaker := stR.nextSpeaker.name,
              content := content, timestamp := (oracles.getD round {}).ts,
              replyTo := some last.id, status := some MsgStatus.accepted }).messages
            (stR.messageIdCounter + 1)
          rw [hmsgs]
          exact hDag2
        · show ∀ p, accCount (stR.dag.addMessage
            { id := stR.messageIdCounter + 1, speaker := stR.nextSpeaker.name,
              content := content, timestamp := (oracles.getD round {}).ts,
              replyTo := some last.id, status := some MsgStatus.accepted }).messages p ≤ 1
          intro p
          rw [hmsgs, accCount_append]
          split_ifs with hc
          · have hpl : last.id = p := by
              have := hc.1
              injection this with h5
            rw [← hpl, h3R]
          · have := h2R p
            omega
        · show accCount (stR.dag.addMessage
            { id := stR.messageIdCounter + 1, speaker := stR.nextSpeaker.name,
              content := content, timestamp := (oracles.getD round {}).ts,
              replyTo := some last.id, status := some MsgStatus.accepted }).messages
            (stR.messageIdCounter + 1) = 0
          rw [hmsgs]
          exact accCount_zero_of_ge _ (stR.messageIdCounter + 1) _ hDag2 (Nat.le_refl _)
        · exact Nat.le_refl _

/-- Invariant maintained across the completions of one broadcast of the user
message `um` (content `content`): the roster is `A`, the store is sane, the
single-acceptance bound holds, `um` is still the message
`processSpecificAgent` finds for `content`, the first-response map exactly
tracks whether `um` already has an accepted reply, and every message newer
than `um` is a reply to `um`. -/
def BcastInv (A : List String) (content : String) (um : Message)
    (st : WorldState) : Prop :=
  st.agents = A ∧
  DagInv st.dag.messages st.messageIdCounter ∧
  (∀ p, accCount st.dag.messages p ≤ 1) ∧
  (st.dag.messages.filter
    (fun m => m.speaker = "User" ∧ m.content = content)).getLast? = some um ∧
  accCount st.dag.messages um.id
    = (if um.id ∈ st.firstResponseReceived then 1 else 0) ∧
  um.id ≤ st.messageIdCounter ∧
  (∀ m ∈ st.dag.messages, um.id < m.id → m.replyTo = some um.id)

/-- The reply message `processSpecificAgent` appends for user message `um`
when agent `name` answers `c` at time `ts`. -/
def specificReply (st : WorldState) (um : Message) (name c : String) (ts : Nat) :
    Message :=
  { id := st.messageIdCounter + 1, speaker := name, content := c,
    timestamp := ts, replyTo := some um.id,
    status := some (if ¬ um.id ∈ st.firstResponseReceived then
      MsgStatus.accepted else MsgStatus.dropped) }

/-- The first-response map after `processSpecificAgent` claims (or not) the
first acceptance for `um`. -/
def specificFrr (st : WorldState) (um : Message) : List Nat :=
  if ¬ um.id ∈ st.firstResponseReceived then st.firstResponseReceived ++ [um.id]
  else st.firstResponseReceived

theorem BcastInv_specific (A : List String) (hU : ¬ "User" ∈ A)
    (content : String) (um : Message) (st : WorldState) (name : String)
    (outcome : Except Unit String) (ts : Nat)
    (h : BcastInv A content um st) :
    BcastInv A content um (World.processSpecificAgent st content name outcome ts) := by
  obtain ⟨hA, h1, h2, hlook, hcorr, hle, htail⟩ := h
  simp only [World.processSpecificAgent, hlook]
  split
  next hfound =>
    cases outcome with
    | error e => exact ⟨hA, h1, h2, hlook, hcorr, hle, htail⟩
    | ok c =>
      have hname : name ∈ A := by
        rw [← hA]; exact agent_found_mem st.agents name hfound
      have hnameU : ¬ name = "User" := by
        intro hc; rw [hc] at hname; exact hU hname
      have hmsgs : (st.dag.addMessage (specificReply st um name c ts)).messages
          = st.dag.messages ++ [specificReply st um name c ts] :=
        addMessage_messages_of_inv st.dag st.messageIdCounter
          (specificReply st um name c ts) h1.1 rfl
      refine ⟨hA, ?_, ?_, ?_, ?_, ?_, ?_⟩
      · show DagInv (st.dag.addMessage (specificReply st um name c ts)).messages
          (st.messageIdCounter + 1)
        rw [hmsgs]
        refine DagInv_append _ _ _ h1 rfl ?_
        intro p hp
        injection hp with hp
        show p < st.messageIdCounter + 1
        omega
      · show ∀ p, accCount
          (st.dag.addMessage (specificReply st um name c ts)).messages p ≤ 1
        intro p
        rw [hmsgs, accCount_append]
        by_cases hf : um.id ∈ st.firstResponseReceived
        · rw [if_neg]
          · have := h2 p
            omega
          · intro hc
            have h6 := hc.2
            simp only [specificReply, if_neg (not_not_intro hf)] at h6
            injection h6 with h6
            cases h6
        · split_ifs with hc
          · have hpl : um.id = p := by
              have h5 := hc.1
              injection h5 with h5
            rw [← hpl, hcorr, if_neg hf]
          · have := h2 p
            omega
      · show (List.filter (fun m => m.speaker = "User" ∧ m.content = content)
          (st.dag.addMessage (specificReply st um name c ts)).messages).getLast?
          = some um
        rw [hmsgs, List.filter_append]
        have hfilt : List.filter
            (fun m => m.speaker = "User" ∧ m.content = content)
            [specificReply st um name c ts] = [] := by
          simp only [List.filter_cons, List.filter_nil]
          rw [if_neg]
          simp only [decide_eq_true_eq, not_and]
          intro hsp
          exact absurd hsp hnameU
        rw [hfilt, List.append_nil]
        exact hlook
      · show accCount
          (st.dag.addMessage (specificReply st um name c ts)).messages um.id
          = (if um.id ∈ specificFrr st um then 1 else 0)
        rw [hmsgs, accCount_append]
        by_cases hf : um.id ∈ st.firstResponseReceived
        · rw [if_neg]
          · rw [hcorr, if_pos hf]
            show 1 + 0 = if um.id ∈ specificFrr st um then 1 else 0
            rw [specificFrr, if_neg (not_not_intro hf), if_pos hf]
          · intro hc
            have h6 := hc.2
            simp only [specificReply, if_neg (not_not_intro hf)] at h6
            injection h6 with h6
            cases h6
        · rw [if_pos]
          · rw [hcorr, if_neg hf]
            show 0 + 1 = if um.id ∈ specificFrr st um then 1 else 0
            rw [specificFrr, if_pos hf,
              if_pos (List.mem_append_right _ (List.mem_singleton_self _))]
          · exact ⟨rfl, by
              simp only [specificReply, if_pos hf]⟩
      · show um.id ≤ st.messageIdCounter + 1
        omega
      · show ∀ m ∈ (st.dag.addMessage (specificReply st um name c ts)).messages,
          um.id < m.id → m.replyTo = some um.id
        rw [hmsgs]
        intro m hm hlt
        rcases List.mem_append.mp hm with h5 | h5
        · exact htail m h5 hlt
        · rw [List.mem_singleton.mp h5]
          rfl
  next => exact ⟨hA, h1, h2, hlook, hcorr, hle, htail⟩

theorem BcastInv_completions (A : List String) (hU : ¬ "User" ∈ A)
    (content : String) (um : Message) :
    ∀ (completions : List (String × Except Unit String × Nat)) (st : WorldState),
      BcastInv A content um st →
      BcastInv A content um (completions.foldl
        (fun s c => World.processSpecificAgent s content c.1 c.2.1 c.2.2) st) := by
  intro completions
  induction completions with
  | nil => intro st h; exact h
  | cons c rest ih =>
    intro st h
    exact ih _ (BcastInv_specific A hU content um st c.1 c.2.1 c.2.2 h)

theorem resolves_preserve (vs : List VerificationResult) :
    ∀ st : WorldState,
      (vs.foldl World.applyVerification st).agents = st.agents ∧
      (vs.foldl World.applyVerification st).dag = st.dag ∧
      (vs.foldl World.applyVerification st).messageIdCounter
        = st.messageIdCounter := by
  induction vs with
  | nil => intro st; exact ⟨rfl, rfl, rfl⟩
  | cons v rest ih =>
    intro st
    obtain ⟨h1, h2, h3⟩ := ih (World.applyVerification st v)
    obtain ⟨g1, g2, g3⟩ := applyVerification_preserves st v
    exact ⟨h1.trans g1, h2.trans g2, h3.trans g3⟩

theorem BcastInv_addUser (A : List String) (st : WorldState) (hA : st.agents = A)
    (h1 : DagInv st.dag.messages st.messageIdCounter)
    (h2 : ∀ p, accCount st.dag.messages p ≤ 1) (content : String) (ts : Nat) :
    BcastInv A content
      { id := st.messageIdCounter + 1, speaker := "User", content := content,
        timestamp := ts }
      (World.addUserMessage st content ts).1 := by
  have hmsgs : (st.dag.addMessage
      { id := st.messageIdCounter + 1, speaker := "User", content := content,
        timestamp := ts }).messages
      = st.dag.messages ++
        [{ id := st.messageIdCounter + 1, speaker := "User", content := content,
           timestamp := ts }] :=
    addMessage_messages_of_inv st.dag st.messageIdCounter _ h1.1 rfl
  have hDag2 : DagInv (st.dag.messages ++
      [{ id := st.messageIdCounter + 1, speaker := "User", content := content,
         timestamp := ts }]) (st.messageIdCounter + 1) := by
    refine DagInv_append _ _ _ h1 rfl ?_
    intro p hp
    cases hp
  refine ⟨hA, ?_, ?_, ?_, ?_, ?_, ?_⟩
  · show DagInv (st.dag.addMessage
      { id := st.messageIdCounter + 1, speaker := "User", content := content,
        timestamp := ts }).messages (st.messageIdCounter + 1)
    rw [hmsgs]
    exact hDag2
  · show ∀ p, accCount (st.dag.addMessage
      { id := st.messageIdCounter + 1, speaker := "User", content := content,
        timestamp := ts }).messages p ≤ 1
    intro p
    rw [hmsgs, accCount_append, if_neg]
    · have := h2 p
      omega
    · intro hc
      cases hc.2
  · show (List.filter (fun m => m.speaker = "User" ∧ m.content = content)
      (st.dag.addMessage
        { id := st.messageIdCounter + 1, speaker := "User", content := content,
          timestamp := ts }).messages).getLast?
      = some { id := st.messageIdCounter + 1, speaker := "User",
               content := content, timestamp := ts }
    rw [hmsgs, List.filter_append]
    have hfilt : List.filter (fun m => m.speaker = "User" ∧ m.content = content)
        [({ id := st.messageIdCounter + 1, speaker := "User", content := content,
            timestamp := ts } : Message)]
        = [{ id := st.messageIdCounter + 1, speaker := "User", content := content,
             timestamp := ts }] := by
      simp only [List.filter_cons, List.filter_nil]
      rw [if_pos]
      simp
    rw [hfilt]
    exact List.getLast?_concat _
  · show accCount (st.dag.addMessage
      { id := st.messageIdCounter + 1, speaker := "User", content := content,
        timestamp := ts }).messages (st.messageIdCounter + 1)
      = (if st.messageIdCounter + 1 ∈ ([] : List Nat) then 1 else 0)
    rw [if_neg (List.not_mem_nil _), hmsgs]
    exact accCount_zero_of_ge _ (st.messageIdCounter + 1) _ hDag2 (Nat.le_refl _)
  · show st.messageIdCounter + 1 ≤ st.messageIdCounter + 1
    exact Nat.le_refl _
  · show ∀ m ∈ (st.dag.addMessage
      { id := st.messageIdCounter + 1, speaker := "User", content := content,
        timestamp := ts }).messages,
      st.messageIdCounter + 1 < m.id →
      m.replyTo = some (st.messageIdCounter + 1)
    rw [hmsgs]
    intro m hm hlt
    rcases List.mem_append.mp hm with h5 | h5
    · have := h1.1 m h5
      omega
    · rw [List.mem_singleton.mp h5] at hlt
      simp at hlt

theorem broadcastFinish_accepted (st : WorldState) (uid : Nat)
    (summ : Except Unit (String × ParsedSummary)) (acc : Message)
    (h : (World.broadcastFinish st uid summ).2.1 = some acc) :
    acc ∈ st.dag.messages ∧ acc.replyTo = some uid ∧
    acc.status = some MsgStatus.accepted := by
  simp only [World.broadcastFinish] at h
  cases hfind : st.dag.messages.find? (fun m =>
      m.replyTo = some uid ∧ m.status = some MsgStatus.accepted) with
  | none =>
    rw [hfind] at h
    cases h
  | some x =>
    rw [hfind] at h
    have hx : x = acc := by injection h
    rw [← hx]
    have hmem := List.mem_of_find?_eq_some hfind
    have hprop := List.find?_some hfind
    simp only [decide_eq_true_eq] at hprop
    exact ⟨hmem, hprop.1, hprop.2⟩

theorem C1_segment (A : List String) (hU : ¬ "User" ∈ A) (seg : Segment)
    (st : WorldState) (h : C1Post A st) : C1Post A (World.execSegment st seg) := by
  obtain ⟨resolves, content, ts, mode⟩ := seg
  obtain ⟨hA, h1, h2⟩ := h
  obtain ⟨hr1, hr2, hr3⟩ := resolves_preserve resolves st
  have hA0 : (resolves.foldl World.applyVerification st).agents = A := hr1.trans hA
  have h10 : DagInv (resolves.foldl World.applyVerification st).dag.messages
      (resolves.foldl World.applyVerification st).messageIdCounter := by
    rw [hr2, hr3]; exact h1
  have h20 : ∀ p, accCount
      (resolves.foldl World.applyVerification st).dag.messages p ≤ 1 := by
    rw [hr2]; exact h2
  have hB := BcastInv_addUser A (resolves.foldl World.applyVerification st)
    hA0 h10 h20 content ts
  cases mode with
  | chatSeq oracles =>
    show C1Post A (World.processAgentResponsesQueue
      (World.addUserMessage (resolves.foldl World.applyVerification st)
        content ts).1
      (World.addUserMessage (resolves.foldl World.applyVerification st)
        content ts).2 oracles).1
    have hz : accCount (World.addUserMessage
        (resolves.foldl World.applyVerification st) content ts).1.dag.messages
        ((resolves.foldl World.applyVerification st).messageIdCounter + 1) = 0 := by
      have h5 := hB.2.2.2.2.1
      simp only [World.addUserMessage] at h5
      rwa [if_neg (List.not_mem_nil _)] at h5
    exact C1_runRounds A oracles maxRounds 0 _ _
      hB.1 hB.2.1 hB.2.2.1 hz hB.2.2.2.2.2.1
  | broadcast completions summ oracles =>
    have hC := BcastInv_completions A hU content
      { id := (resolves.foldl World.applyVerification st).messageIdCounter + 1,
        speaker := "User", content := content, timestamp := ts }
      completions
      (World.addUserMessage (resolves.foldl World.applyVerification st)
        content ts).1 hB
    show C1Post A (match (World.broadcastFinish
        (completions.foldl (fun s c =>
          World.processSpecificAgent s content c.1 c.2.1 c.2.2)
          (World.addUserMessage (resolves.foldl World.applyVerification st)
            content ts).1)
        (World.addUserMessage (resolves.foldl World.applyVerification st)
          content ts).2.id summ).2.1 with
      | some acc => (World.processAgentResponsesQueue
          (World.broadcastFinish
            (completions.foldl (fun s c =>
              World.processSpecificAgent s content c.1 c.2.1 c.2.2)
              (World.addUserMessage (resolves.foldl World.applyVerification st)
                content ts).1)
            (World.addUserMessage (resolves.foldl World.applyVerification st)
              content ts).2.id summ).1 acc oracles).1
      | none => (World.broadcastFinish
          (completions.foldl (fun s c =>
            World.processSpecificAgent s content c.1 c.2.1 c.2.2)
            (World.addUserMessage (resolves.foldl World.applyVerification st)
              content ts).1)
          (World.addUserMessage (resolves.foldl World.applyVerification st)
            content ts).2.id summ).1)
    obtain ⟨hf1, hf2, hf3⟩ := broadcastFinish_preserves
      (completions.foldl (fun s c =>
        World.processSpecificAgent s content c.1 c.2.1 c.2.2)
        (World.addUserMessage (resolves.foldl World.applyVerification st)
          content ts).1)
      (World.addUserMessage (resolves.foldl World.applyVerification st)
        content ts).2.id summ
    split
    next acc heq =>
      obtain ⟨haccmem, haccrep, haccst⟩ := broadcastFinish_accepted _ _ _ acc heq
      have hua : (resolves.foldl World.applyVerification st).messageIdCounter + 1
          < acc.id := hC.2.1.2.2 acc haccmem _ haccrep
      have hzero : accCount (completions.foldl (fun s c =>
          World.processSpecificAgent s content c.1 c.2.1 c.2.2)
          (World.addUserMessage (resolves.foldl World.applyVerification st)
            content ts).1).dag.messages acc.id = 0 := by
        apply accCount_zero
        intro m hm hc
        by_cases hlt : (resolves.foldl World.applyVerification st).messageIdCounter
            + 1 < m.id
        · have h6 := hC.2.2.2.2.2.2 m hm hlt
          rw [h6] at hc
          have h8 : (resolves.foldl World.applyVerification st).messageIdCounter + 1
              = acc.id := by injection hc
          omega
        · have h6 := hC.2.1.2.2 m hm acc.id hc
          omega
      refine C1_runRounds A oracles maxRounds 0 _ acc ?_ ?_ ?_ ?_ ?_
      · exact hf1.trans hC.1
      · rw [hf2, hf3]
        exact hC.2.1
      · rw [hf2]
        exact hC.2.2.1
      · rw [hf2]
        exact hzero
      · rw [hf3]
        exact hC.2.1.1 acc haccmem
    next heq =>
      exact ⟨hf1.trans hC.1, by rw [hf2, hf3]; exact hC.2.1,
        by rw [hf2]; exact hC.2.2.1⟩

/-- C1 amended: the single-acceptance invariant holds for operation
sequences that follow the server's call pattern (routes/chat.ts and
routes/threads.ts) on a roster without an agent named "User": each user
message is ingested by `addUserMessage` and then either handed directly to
the sequential loop, or broadcast to the roster with the sequential loop
started on the broadcast's accepted reply; background verifications may
resolve between segments.  Then for every parent, at most one reply has
status accepted.  The unamended claim — over arbitrary interleavings of the
three operations — is refuted by `single_acceptance_counterexample`. -/
theorem single_acceptance_amended (roster : List String) (segs : List Segment)
    (hU : ¬ "User" ∈ roster) (parent : Nat) :
    acceptedCount (World.execSegments roster segs).dag parent ≤ 1 := by
  suffices h : C1Post roster (World.execSegments roster segs) from h.2.2 parent
  have hfold : ∀ (l : List Segment) (w : WorldState), C1Post roster w →
      C1Post roster (l.foldl World.execSegment w) := by
    intro l
    induction l with
    | nil => exact fun w hw => hw
    | cons s rest ih => exact fun w hw => ih _ (C1_segment roster hU s w hw)
  refine hfold segs (World.init roster) ⟨rfl, ⟨?_, List.nodup_nil, ?_⟩, ?_⟩
  · intro m hm; cases hm
  · intro m hm; cases hm
  · intro p
    show accCount [] p ≤ 1
    simp [accCount]

/-- Witness for C1 amended: one broadcast segment on roster {A, B} in which
both agents answer and the summarizer recommends B leaves every parent with
at most one accepted reply. -/
theorem single_acceptance_amended_witness :
    acceptedCount (World.execSegments ["A", "B"]
      [{ resolves := [], content := "q", ts := 0,
         mode := ConvMode.broadcast
           [("A", Except.ok "ra", 1), ("B", Except.ok "rb", 2)]
           (Except.ok ("",
             { summary := some "s", next_id := some "B", next_name := some "B",
               recommendation_reason := some "x" }))
           [] }]).dag 1 ≤ 1 :=
  single_acceptance_amended ["A", "B"]
    [{ resolves := [], content := "q", ts := 0,
       mode := ConvMode.broadcast
         [("A", Except.ok "ra", 1), ("B", Except.ok "rb", 2)]
         (Except.ok ("",
           { summary := some "s", next_id := some "B", next_name := some "B",
             recommendation_reason := some "x" }))
         [] }] (by decide) 1

/-! ### C2: scheduler invariants -/

/-- Inductive invariant of the scheduler: the in-flight count is bounded by
the concurrency limit, dispatch order is exactly submission order (the
dispatch log followed by the still-queued jobs is the submission log), a
non-empty queue means the scheduler is saturated, job identities are
distinct, and every submitted job is in exactly one of queue / in-flight /
settled (as multisets). -/
def SchedInv (s : SchedState) : Prop :=
  s.activeRequests ≤ MAX_CONCURRENT_REQUESTS ∧
  s.submitted = s.dispatched ++ s.queue ∧
  (s.queue ≠ [] → s.activeRequests = MAX_CONCURRENT_REQUESTS) ∧
  s.submitted.Nodup ∧
  ((s.queue ++ s.active ++ s.done.map Prod.fst : List Nat) : Multiset Nat)
    = (s.submitted : Multiset Nat)

theorem SchedInv_init : SchedInv SchedState.init := by
  refine ⟨by decide, rfl, fun h => absurd rfl h, List.nodup_nil, rfl⟩

theorem SchedInv_request (s : SchedState) (j : Nat) (hfresh : ¬ j ∈ s.submitted)
    (h : SchedInv s) : SchedInv (s.request j) := by
  obtain ⟨hb, hf, hq, hn, hp⟩ := h
  have hnodup2 : (s.submitted ++ [j]).Nodup := by
    rw [List.nodup_append]
    refine ⟨hn, List.nodup_singleton _, ?_⟩
    intro a ha haj
    rw [List.mem_singleton.mp haj] at ha
    exact hfresh ha
  simp only [SchedState.request, SchedState.processQueue]
  split_ifs with hcap
  · refine ⟨hb, ?_, ?_, hnodup2, ?_⟩
    · show s.submitted ++ [j] = s.dispatched ++ (s.queue ++ [j])
      rw [hf, List.append_assoc]
    · intro _
      show s.activeRequests = MAX_CONCURRENT_REQUESTS
      simp only [SchedState.activeRequests] at hb hcap ⊢
      omega
    · show (((s.queue ++ [j]) ++ s.active ++ s.done.map Prod.fst : List Nat) :
        Multiset Nat) = ((s.submitted ++ [j] : List Nat) : Multiset Nat)
      simp only [← Multiset.coe_add, Multiset.coe_singleton] at hp ⊢
      rw [← hp]
      abel
  · have hqnil : s.queue = [] := by
      by_contra hne
      have := hq hne
      simp only [SchedState.activeRequests] at hcap this
      omega
    rw [hqnil]
    simp only [List.nil_append]
    refine ⟨?_, ?_, ?_, hnodup2, ?_⟩
    · show (s.active ++ [j]).length ≤ MAX_CONCURRENT_REQUESTS
      rw [List.length_append]
      simp only [SchedState.activeRequests] at hcap
      simp only [List.length_singleton]
      omega
    · show s.submitted ++ [j] = (s.dispatched ++ [j]) ++ []
      rw [List.append_nil]
      have hsub : s.submitted = s.dispatched := by
        rw [hf, hqnil, List.append_nil]
      rw [hsub]
    · intro hc
      exact absurd rfl hc
    · show ((([] : List Nat) ++ (s.active ++ [j]) ++ s.done.map Prod.fst :
        List Nat) : Multiset Nat) = ((s.submitted ++ [j] : List Nat) : Multiset Nat)
      rw [hqnil] at hp
      simp only [← Multiset.coe_add, Multiset.coe_singleton, List.nil_append] at hp ⊢
      rw [← hp]
      abel

theorem SchedInv_complete (s : SchedState) (j : Nat) (ok : Bool)
    (hmem : j ∈ s.active) (h : SchedInv s) : SchedInv (s.complete j ok) := by
  obtain ⟨hb, hf, hq, hn, hp⟩ := h
  have herase : (s.active.erase j).length = s.active.length - 1 :=
    List.length_erase_of_mem hmem
  have hlen1 : 1 ≤ s.active.length := List.length_pos.mpr
    (List.ne_nil_of_mem hmem)
  have hcoe : ((s.active : List Nat) : Multiset Nat)
      = {j} + ((s.active.erase j : List Nat) : Multiset Nat) := by
    rw [← Multiset.coe_erase, Multiset.singleton_add,
      Multiset.cons_erase (Multiset.mem_coe.mpr hmem)]
  have hdm : (s.done ++ [(j, ok)]).map Prod.fst = s.done.map Prod.fst ++ [j] := by
    rw [List.map_append]
    rfl
  simp only [SchedState.complete, SchedState.processQueue]
  split_ifs with hcap
  · exfalso
    simp only [SchedState.activeRequests] at hb hcap
    omega
  · split
    next hnil =>
      refine ⟨?_, hf, ?_, hn, ?_⟩
      · show (s.active.erase j).length ≤ MAX_CONCURRENT_REQUESTS
        simp only [SchedState.activeRequests] at hb
        omega
      · intro hc
        exact absurd hnil hc
      · show ((s.queue ++ s.active.erase j ++ (s.done ++ [(j, ok)]).map Prod.fst :
          List Nat) : Multiset Nat) = (s.submitted : Multiset Nat)
        rw [hdm, ← hp]
        simp only [← Multiset.coe_add, Multiset.coe_singleton]
        rw [hcoe]
        abel
    next x rest hxr =>
      refine ⟨?_, ?_, ?_, hn, ?_⟩
      · show (s.active.erase j ++ [x]).length ≤ MAX_CONCURRENT_REQUESTS
        rw [List.length_append, List.length_singleton]
        simp only [SchedState.activeRequests] at hb
        omega
      · show s.submitted = (s.dispatched ++ [x]) ++ rest
        rw [hf, hxr, List.append_assoc]
        rfl
      · intro _
        show (s.active.erase j ++ [x]).length = MAX_CONCURRENT_REQUESTS
        have hq4 := hq (by rw [hxr]; intro hc; cases hc)
        simp only [SchedState.activeRequests] at hq4
        rw [List.length_append, List.length_singleton]
        omega
      · show ((rest ++ (s.active.erase j ++ [x]) ++
          (s.done ++ [(j, ok)]).map Prod.fst : List Nat) : Multiset Nat)
          = (s.submitted : Multiset Nat)
        rw [hdm, ← hp, hxr]
        simp only [← Multiset.coe_add, Multiset.coe_singleton,
          ← Multiset.cons_coe, ← Multiset.singleton_add]
        rw [hcoe]
        abel

/-- Every reachable scheduler state satisfies the invariant. -/
theorem SchedInv_reachable (s : SchedState) (h : SchedReachable s) : SchedInv s := by
  induction h with
  | init => exact SchedInv_init
  | step hr hs ih =>
    cases hs with
    | submit j fresh => exact SchedInv_request _ j fresh ih
    | complete j ok mem => exact SchedInv_complete _ j ok mem ih

theorem complete_submitted (s : SchedState) (j : Nat) (ok : Bool) :
    (s.complete j ok).submitted = s.submitted := by
  simp only [SchedState.complete, SchedState.processQueue]
  split_ifs
  · rfl
  · split <;> rfl

theorem complete_done (s : SchedState) (j : Nat) (ok : Bool) :
    (s.complete j ok).done = s.done ++ [(j, ok)] := by
  simp only [SchedState.complete, SchedState.processQueue]
  split_ifs
  · rfl
  · split <;> rfl

theorem complete_measure (s : SchedState) (j : Nat) (ok : Bool)
    (hmem : j ∈ s.active) :
    (s.complete j ok).queue.length + (s.complete j ok).active.length + 1
      = s.queue.length + s.active.length := by
  have herase : (s.active.erase j).length = s.active.length - 1 :=
    List.length_erase_of_mem hmem
  have hlen1 : 1 ≤ s.active.length :=
    List.length_pos.mpr (List.ne_nil_of_mem hmem)
  simp only [SchedState.complete, SchedState.processQueue]
  split_ifs
  · simp only []
    omega
  · split
    next hnil =>
      simp only []
      omega
    next x rest hxr =>
      have : s.queue.length = rest.length + 1 := by rw [hxr]; rfl
      simp only [List.length_append, List.length_singleton]
      omega

theorem sched_drain_aux :
    ∀ n (s : SchedState), s.queue.length + s.active.length ≤ n → SchedInv s →
      ∃ t, SchedDrains s t ∧ t.queue = [] ∧ t.active = [] ∧
        t.submitted = s.submitted ∧
        ((t.done.map Prod.fst : List Nat) : Multiset Nat)
          = (t.submitted : Multiset Nat) := by
  intro n
  induction n with
  | zero =>
    intro s hle hinv
    have hq : s.queue = [] := by
      rw [← List.length_eq_zero]
      omega
    have ha : s.active = [] := by
      rw [← List.length_eq_zero]
      omega
    refine ⟨s, SchedDrains.refl s, hq, ha, rfl, ?_⟩
    have h5 := hinv.2.2.2.2
    rw [hq, ha] at h5
    simpa using h5
  | succ n ih =>
    intro s hle hinv
    by_cases hact : s.active = []
    · have hq : s.queue = [] := by
        by_contra hne
        have h5 := hinv.2.2.1 hne
        rw [SchedState.activeRequests, hact] at h5
        cases h5
      refine ⟨s, SchedDrains.refl s, hq, hact, rfl, ?_⟩
      have h5 := hinv.2.2.2.2
      rw [hq, hact] at h5
      simpa using h5
    · obtain ⟨j, hj⟩ := List.exists_mem_of_ne_nil s.active hact
      have hinv2 := SchedInv_complete s j true hj hinv
      have hmeas := complete_measure s j true hj
      obtain ⟨t, hd, h1, h2, h3, h4⟩ := ih (s.complete j true) (by omega) hinv2
      refine ⟨t, SchedDrains.step j true hj hd, h1, h2, ?_, h4⟩
      rw [h3, complete_submitted]

theorem complete_isolated (s : SchedState) (j : Nat) (ok : Bool)
    (_hmem : j ∈ s.active) :
    (∀ i, ¬ i = j →
      ((i ∈ (s.complete j ok).queue ∨ i ∈ (s.complete j ok).active)
        ↔ (i ∈ s.queue ∨ i ∈ s.active))) ∧
    (∀ i b, ¬ i = j →
      ((i, b) ∈ (s.complete j ok).done ↔ (i, b) ∈ s.done)) := by
  constructor
  · intro i hne
    simp only [SchedState.complete, SchedState.processQueue]
    split_ifs
    · simp only []
      rw [List.mem_erase_of_ne hne]
    · split
      next hnil =>
        simp only []
        rw [List.mem_erase_of_ne hne]
      next x rest hxr =>
        simp only [List.mem_append, List.mem_singleton,
          List.mem_erase_of_ne hne, hxr, List.mem_cons]
        tauto
  · intro i b hne
    rw [complete_done, List.mem_append, List.mem_singleton]
    constructor
    · intro hc
      rcases hc with hc | hc
      · exact hc
      · exfalso
        apply hne
        have := congrArg Prod.fst hc
        exact this
    · intro hc
      exact Or.inl hc

/-- C2: for every reachable scheduler state — i.e. after any sequence of job
submissions and settlements — the number of in-flight requests never exceeds
the limit K = 4; jobs are dispatched in FIFO submission order (the dispatch
log followed by the still-queued jobs is exactly the submission log); no job
is ever reported settled twice; from any such state, settling the in-flight
jobs drains the queue and yields every submitted job settled exactly once
(the settlement log is a permutation of the submission log); and a
settlement — in particular a failing one — reports to exactly its own
submitter and leaves every other queued or in-flight job queued or in-flight
and every other settlement record unchanged. -/
theorem scheduler_invariants (s : SchedState) (h : SchedReachable s) :
    s.activeRequests ≤ MAX_CONCURRENT_REQUESTS ∧
    s.submitted = s.dispatched ++ s.queue ∧
    (∀ j, (s.done.map Prod.fst).count j ≤ 1) ∧
    (∃ t, SchedDrains s t ∧ t.queue = [] ∧ t.active = [] ∧
      t.submitted = s.submitted ∧
      ((t.done.map Prod.fst : List Nat) : Multiset Nat)
        = (s.submitted : Multiset Nat)) ∧
    (∀ j ok, j ∈ s.active →
      (s.complete j ok).done = s.done ++ [(j, ok)] ∧
      (∀ i, ¬ i = j →
        ((i ∈ (s.complete j ok).queue ∨ i ∈ (s.complete j ok).active)
          ↔ (i ∈ s.queue ∨ i ∈ s.active))) ∧
      (∀ i b, ¬ i = j →
        ((i, b) ∈ (s.complete j ok).done ↔ (i, b) ∈ s.done))) := by
  have hinv := SchedInv_reachable s h
  obtain ⟨hb, hf, hq, hn, hp⟩ := hinv
  refine ⟨hb, hf, ?_, ?_, ?_⟩
  · intro j
    have hc := congrArg (Multiset.count j) hp
    simp only [Multiset.coe_count] at hc
    rw [List.count_append, List.count_append] at hc
    have h1 : s.submitted.count j ≤ 1 :=
      List.nodup_iff_count_le_one.mp hn j
    omega
  · obtain ⟨t, hd, h1, h2, h3, h4⟩ := sched_drain_aux
      (s.queue.length + s.active.length) s (Nat.le_refl _) ⟨hb, hf, hq, hn, hp⟩
    exact ⟨t, hd, h1, h2, h3, by rw [h4, h3]⟩
  · intro j ok hmem
    obtain ⟨hiso1, hiso2⟩ := complete_isolated s j ok hmem
    exact ⟨complete_done s j ok, hiso1, hiso2⟩

/-- Witness for C2 after two submissions. -/
theorem scheduler_invariants_witness :
    ((SchedState.init.request 0).request 1).activeRequests
      ≤ MAX_CONCURRENT_REQUESTS :=
  (scheduler_invariants ((SchedState.init.request 0).request 1)
    (SchedReachable.step
      (SchedReachable.step SchedReachable.init
        (SchedStep.submit SchedState.init 0 (by decide)))
      (SchedStep.submit (SchedState.init.request 0) 1 (by decide)))).1

end A2AOrch
